import Mathlib

/-!
# Verification of the RBTree-Visualizer core (analyze.py / build.py)

Shallow embedding of the red-black tree engine (`RBTree` in `analyze.py`,
`RBTreeAnimated` in `build.py`), the permutation search worker, the prefix
filter and the DP-based random coloring sampler, together with proofs and
refutations of the specification's claims.

The Python code is a CLRS pointer implementation with parent pointers and a
shared `NIL` sentinel.  The embedding represents a tree as an inductive value
and replaces the parent pointers by an explicit zipper context (a list of
frames recording, innermost first, how the focused subtree hangs off its
ancestors).  Machine details preserved by the translation:

* colors are `Bool` with `RED = True`, `BLACK = False` exactly as in the
  source (`RED, BLACK = True, False`);
* the sentinel `NIL` is `RBTree.nil`; its color is `BLACK` (reads of
  `NIL.color` in the source always see `BLACK`; the one place that could
  transiently recolor the sentinel — delete-fixup case 2 with a sentinel
  sibling — is unreachable from balanced states and is modelled as a no-op);
* `insert` in `analyze.py` has NO duplicate check: the BST descent sends an
  equal key to the right (`x = x.left if key < x.key else x.right`), so a
  duplicate key is attached as a new node;
* `insert` in `build.py` aborts on an equal key during the descent.
-/

/-- `RED, BLACK = True, False` (analyze.py line 60, build.py alike). -/
def RED : Bool := true

/-- `RED, BLACK = True, False` (analyze.py line 60, build.py alike). -/
def BLACK : Bool := false

/-- An `RBNode` tree; `nil` is the shared sentinel `NIL`.
Fields mirror `RBNode.__slots__ = ('key', 'color', 'left', 'right', 'parent')`;
the parent pointer is represented by the zipper context below. -/
inductive RBTree where
  | nil : RBTree
  | node (key : Int) (color : Bool) (left right : RBTree) : RBTree
deriving DecidableEq, Repr

/-- `node.color`, with `NIL.color = BLACK` as in the source. -/
def colorOf : RBTree → Bool
  | .nil => BLACK
  | .node _ c _ _ => c

/-- `n.color = BLACK` as a tree-to-tree update (no-op on the sentinel). -/
def setBlack : RBTree → RBTree
  | .nil => .nil
  | .node k _ l r => .node k BLACK l r

/-- In-order key list (the `_inorder` traversal of analyze.py). -/
def inorder : RBTree → List Int
  | .nil => []
  | .node k _ l r => inorder l ++ k :: inorder r

/-- The nested-tuple fingerprint produced by `RBTree.to_tuple`
(`(key, color, left_tuple, right_tuple)`, `None` for `NIL`). -/
inductive Fp where
  | empty : Fp
  | mk (key : Int) (color : Bool) (l r : Fp) : Fp
deriving DecidableEq, Repr

/-- `RBTree.to_tuple` (analyze.py lines 445-460); the same encoding is
produced for a `TNode` target by `tnode_to_tuple` (lines 500-515). -/
def toTuple : RBTree → Fp
  | .nil => .empty
  | .node k c l r => .mk k c (toTuple l) (toTuple r)

/-- Which child of its parent the focused subtree is. -/
inductive Dir where
  | L : Dir
  | R : Dir
deriving DecidableEq, Repr

/-- One step of the parent chain: the focus is the `dir`-child of a node
with key `key` and color `color` whose other child is `other`. -/
structure Frame where
  dir : Dir
  key : Int
  color : Bool
  other : RBTree
deriving DecidableEq, Repr

/-- A zipper context: frames from the focus up to the root (innermost
first).  This is the embedding of the source's `parent` pointers. -/
abbrev Ctx := List Frame

/-- Rebuild the full tree from a focused subtree and its context. -/
def plug : RBTree → Ctx → RBTree
  | t, [] => t
  | t, ⟨.L, k, c, o⟩ :: ctx => plug (.node k c t o) ctx
  | t, ⟨.R, k, c, o⟩ :: ctx => plug (.node k c o t) ctx

/-- The BST descent of `RBTree.insert` (analyze.py lines 238-242):
`while x is not self.NIL: y = x; x = x.left if key < x.key else x.right`.
Equal keys go RIGHT (no duplicate check).  Returns the context of the
`NIL` position where the new node is attached. -/
def descend (key : Int) : RBTree → Ctx → Ctx
  | .nil, ctx => ctx
  | .node k c l r, ctx =>
      if key < k then descend key l (⟨.L, k, c, r⟩ :: ctx)
      else descend key r (⟨.R, k, c, l⟩ :: ctx)

/-- `RBTree._insert_fix` (analyze.py lines 255-299), CLRS RB-INSERT-FIXUP,
on the zipper.  The focus `z` is the current node; the loop
`while z.parent and z.parent.color == RED` becomes recursion on the context.

* empty context: `z.parent` is `None`; the loop is skipped and the final
  `self.root.color = BLACK` blackens the focus (which is the root);
* parent frame BLACK: loop guard fails; rebuild and blacken the root;
* parent frame RED with no grandparent frame: in the source this state is
  unreachable (a RED parent is never the root, whose color is forced BLACK);
  the Python expression `z.parent.parent.left` would raise.  We rebuild and
  blacken the root, which is the correct behaviour on such states;
* Case 1 (uncle RED): recolor parent/uncle BLACK, grandparent RED, and
  continue from the grandparent (recursion on the remaining context);
* Cases 2+3 (uncle BLACK): the inner-child rotation followed by the
  grandparent rotation produce a subtree after which the source's loop
  guard is false (the new parent of `z` is BLACK), so the loop exits and
  the root is blackened. -/
def insFix : RBTree → Ctx → RBTree
  | z, [] => setBlack z
  | z, ⟨d1, pk, pc, ps⟩ :: rest =>
    if pc = BLACK then setBlack (plug z (⟨d1, pk, pc, ps⟩ :: rest))
    else
      match rest with
      | [] => setBlack (plug z (⟨d1, pk, pc, ps⟩ :: []))
      | ⟨d2, gk, gc, u⟩ :: rest2 =>
        match d2 with
        | .L =>
          -- parent is the left child of the grandparent; uncle `u` is the
          -- grandparent's right child
          match u with
          | .node uk true ul ur =>
            -- Case 1: uncle RED → parent, uncle BLACK; grandparent RED;
            -- z = z.parent.parent
            let newP : RBTree :=
              match d1 with
              | .L => .node pk BLACK z ps
              | .R => .node pk BLACK ps z
            insFix (.node gk RED newP (.node uk BLACK ul ur)) rest2
          | u =>
            match d1 with
            | .L =>
              -- Case 3 only (z outer/left): parent BLACK, grandparent RED,
              -- right-rotate grandparent; loop exits (parent now BLACK)
              setBlack (plug (.node pk BLACK z (.node gk RED ps u)) rest2)
            | .R =>
              -- Case 2 (z inner/right): left-rotate parent, then Case 3
              match z with
              | .nil => setBlack (plug z (⟨d1, pk, pc, ps⟩ :: ⟨d2, gk, gc, u⟩ :: rest2))
              | .node zk _ zl zr =>
                setBlack (plug (.node zk BLACK (.node pk RED ps zl)
                  (.node gk RED zr u)) rest2)
        | .R =>
          -- mirror: parent is the right child; uncle is the left child
          match u with
          | .node uk true ul ur =>
            let newP : RBTree :=
              match d1 with
              | .L => .node pk BLACK z ps
              | .R => .node pk BLACK ps z
            insFix (.node gk RED (.node uk BLACK ul ur) newP) rest2
          | u =>
            match d1 with
            | .R =>
              -- Case 3 mirror (z outer/right)
              setBlack (plug (.node pk BLACK (.node gk RED u ps) z) rest2)
            | .L =>
              -- Case 2 mirror (z inner/left) then Case 3 mirror
              match z with
              | .nil => setBlack (plug z (⟨d1, pk, pc, ps⟩ :: ⟨d2, gk, gc, u⟩ :: rest2))
              | .node zk _ zl zr =>
                setBlack (plug (.node zk BLACK (.node gk RED u zl)
                  (.node pk RED zr ps)) rest2)

/-- `RBTree.insert` (analyze.py lines 224-253): BST descent, attach a RED
node with sentinel children, then fix up. -/
def rbInsert (key : Int) (t : RBTree) : RBTree :=
  insFix (.node key RED .nil .nil) (descend key t [])

/-- `RBTree._search` (analyze.py lines 434-441) as a zipper descent,
returning the found node's fields and context, or `none` when the key is
absent (`self.NIL` reached). -/
def searchZ (key : Int) : RBTree → Ctx → Option (Int × Bool × RBTree × RBTree × Ctx)
  | .nil, _ => none
  | .node k c l r, ctx =>
      if key = k then some (k, c, l, r, ctx)
      else if key < k then searchZ key l (⟨.L, k, c, r⟩ :: ctx)
      else searchZ key r (⟨.R, k, c, l⟩ :: ctx)

/-- `RBTree._tree_minimum` (analyze.py lines 313-317) on the zipper:
descend left from `t`, accumulating frames; returns the minimum node's
key, color and right subtree with its context.  `none` only for `nil`
input (never the case at the call site). -/
def minZ : RBTree → Ctx → Option (Ctx × Int × Bool × RBTree)
  | .nil, _ => none
  | .node k c .nil r, ctx => some (ctx, k, c, r)
  | .node k c (.node lk lc ll lr) r, ctx =>
      minZ (.node lk lc ll lr) (⟨.L, k, c, r⟩ :: ctx)

/-- `RBTree._delete_fix` (analyze.py lines 368-430), CLRS RB-DELETE-FIXUP,
on the zipper.  The focus `x` is the double-black node (possibly the
sentinel); the loop `while x is not self.root and x.color == BLACK`
becomes recursion on the context.

Translation notes, mirroring the source line by line:
* `x` red, or the context empty (x is the root): the loop is skipped or
  exited and the final `x.color = BLACK` blackens the focus;
* Case 1 (sibling `w` RED): recolor `w` BLACK and the parent RED, rotate
  the parent toward `x`, and re-derive the sibling; the SAME loop
  iteration then falls through to cases 2-4, which is inlined below with
  the parent now RED and the context extended by the frame of the old
  sibling (now the new subtree root, BLACK);
* Case 2 (both nephews BLACK): recolor `w` RED and move `x` up.  When the
  parent is RED the next loop test fails immediately and the parent is
  blackened (`x.color = BLACK`), which is written out directly on the
  post-case-1 path; on the plain path the recursion continues;
* Case 2 with a sentinel sibling (`w is NIL`): the source would transiently
  set `NIL.color = RED`; this never happens on balanced trees (the sibling
  of a double-black node has positive black-height) and is modelled as
  keeping the sentinel;
* Case 3 (near nephew RED, far BLACK): blacken the near nephew, redden
  `w`, rotate `w` away from `x`, re-derive `w`, fall through to case 4;
  the rotation pivot is the RED near nephew, a real node on every
  reachable state; the degenerate sentinel-pivot branch returns the
  rebuilt tree unchanged;
* Case 4 (far nephew RED): `w` takes the parent's color, the parent and
  the far nephew turn BLACK, rotate the parent toward `x`, set `x = root`
  — the loop exits and the final `x.color = BLACK` blackens the ROOT. -/
def delFix : RBTree → Ctx → RBTree
  | x, [] => setBlack x
  | x, ⟨d1, pk, pc, w⟩ :: rest =>
    if colorOf x = RED then plug (setBlack x) (⟨d1, pk, pc, w⟩ :: rest)
    else
      match d1 with
      | .L =>
        -- x is the left child; sibling w = x.parent.right
        match w with
        | .node wk true wl wr =>
          -- Case 1: sibling RED; after the rotation the new sibling is the
          -- old w.left and the parent is RED, all inside the blackened w.
          let rest2 : Ctx := ⟨.L, wk, BLACK, wr⟩ :: rest
          match wl with
          | .nil =>
            -- unreachable on balanced trees (new sibling of positive
            -- black-height); case 2 applies vacuously and the RED parent
            -- exits the loop and is blackened
            plug (.node pk BLACK x .nil) rest2
          | .node sk _ sl sr =>
            if colorOf sl = BLACK ∧ colorOf sr = BLACK then
              -- Case 2 after case 1: redden sibling; x moves to the RED
              -- parent, the loop exits, and x is blackened
              plug (.node pk BLACK x (.node sk RED sl sr)) rest2
            else if colorOf sr = BLACK then
              -- Case 3 then case 4 (near nephew sl is a RED node)
              match sl with
              | .nil => plug x (⟨d1, pk, pc, w⟩ :: rest)
              | .node nk _ nl nr =>
                setBlack (plug (.node nk RED (.node pk BLACK x nl)
                  (setBlack (.node sk RED nr sr))) rest2)
            else
              -- Case 4 directly (far nephew sr RED); w takes the parent's
              -- color, which is RED on this path
              setBlack (plug (.node sk RED (.node pk BLACK x sl)
                (setBlack sr)) rest2)
        | .nil =>
          -- sentinel sibling (unreachable on balanced trees): the
          -- nephews are the sentinel's self-children, both BLACK, so
          -- case 2 applies; the sentinel is not reddened (see note above)
          delFix (.node pk pc x .nil) rest
        | .node wk false wl wr =>
            if colorOf wl = BLACK ∧ colorOf wr = BLACK then
              -- Case 2: redden w, move x up
              delFix (.node pk pc x (.node wk RED wl wr)) rest
            else if colorOf wr = BLACK then
              -- Case 3 then case 4
              match wl with
              | .nil => plug x (⟨d1, pk, pc, w⟩ :: rest)
              | .node nk _ nl nr =>
                setBlack (plug (.node nk pc (.node pk BLACK x nl)
                  (setBlack (.node wk RED nr wr))) rest)
            else
              -- Case 4 directly
              setBlack (plug (.node wk pc (.node pk BLACK x wl)
                (setBlack wr)) rest)
      | .R =>
        -- mirror: x is the right child; sibling w = x.parent.left
        match w with
        | .node wk true wl wr =>
          let rest2 : Ctx := ⟨.R, wk, BLACK, wl⟩ :: rest
          match wr with
          | .nil =>
            plug (.node pk BLACK .nil x) rest2
          | .node sk _ sl sr =>
            if colorOf sr = BLACK ∧ colorOf sl = BLACK then
              plug (.node pk BLACK (.node sk RED sl sr) x) rest2
            else if colorOf sl = BLACK then
              match sr with
              | .nil => plug x (⟨d1, pk, pc, w⟩ :: rest)
              | .node nk _ nl nr =>
                setBlack (plug (.node nk RED (setBlack (.node sk RED sl nl))
                  (.node pk BLACK nr x)) rest2)
            else
              setBlack (plug (.node sk RED (setBlack sl)
                (.node pk BLACK sr x)) rest2)
        | .nil =>
          delFix (.node pk pc .nil x) rest
        | .node wk false wl wr =>
            if colorOf wr = BLACK ∧ colorOf wl = BLACK then
              delFix (.node pk pc (.node wk RED wl wr) x) rest
            else if colorOf wl = BLACK then
              match wr with
              | .nil => plug x (⟨d1, pk, pc, w⟩ :: rest)
              | .node nk _ nl nr =>
                setBlack (plug (.node nk pc (setBlack (.node wk RED wl nl))
                  (.node pk BLACK nr x)) rest)
            else
              setBlack (plug (.node wk pc (setBlack wl)
                (.node pk BLACK wr x)) rest)

/-- `RBTree.delete` (analyze.py lines 321-366), CLRS RB-DELETE on the
zipper.  Find `z`; no-op when absent.  Structural cases: no left child →
splice in the right child; no right child → splice in the left child; two
children → splice out the in-order successor `y = minimum(z.right)`, move
it to `z`'s slot with `z`'s color; `x` is the spliced position.  When the
removed node's original color is BLACK, run the fixup from `x`. -/
def rbDelete (key : Int) (t : RBTree) : RBTree :=
  match searchZ key t [] with
  | none => t
  | some (_, zc, zl, zr, ctx) =>
    match zl, zr with
    | .nil, _ =>
      if zc = BLACK then delFix zr ctx else plug zr ctx
    | .node a b c d, .nil =>
      if zc = BLACK then delFix (.node a b c d) ctx else plug (.node a b c d) ctx
    | .node _ _ _ _, .node _ _ _ _ =>
      match minZ zr [] with
      | none => t
      | some (ictx, yk, yc, yr) =>
        let ctx2 : Ctx := ictx ++ ⟨.R, yk, zc, zl⟩ :: ctx
        if yc = BLACK then delFix yr ctx2 else plug yr ctx2

/-- The `(action, key, is_helper)` step tuples of analyze.py. -/
inductive Act where
  | INSERT : Act
  | DELETE : Act
deriving DecidableEq, Repr

/-- A step as consumed by `execute_steps`. -/
abbrev Step := Act × Int × Bool

/-- `execute_steps` (analyze.py lines 518-537): replay a step list against
a fresh tree, ignoring the helper flag. -/
def execSteps (steps : List Step) : RBTree :=
  steps.foldl (fun t s => match s.1 with
    | .INSERT => rbInsert s.2.1 t
    | .DELETE => rbDelete s.2.1 t) .nil

/-- The BST descent of `RBTreeAnimated.insert` (build.py lines 789-812):
identical to the analyze.py descent except that an equal key aborts the
whole insert (`if key == x.key: ... return`).  `none` signals the abort. -/
def descendB (key : Int) : RBTree → Ctx → Option Ctx
  | .nil, ctx => some ctx
  | .node k c l r, ctx =>
      if key = k then none
      else if key < k then descendB key l (⟨.L, k, c, r⟩ :: ctx)
      else descendB key r (⟨.R, k, c, l⟩ :: ctx)

/-- `RBTreeAnimated.insert` (build.py lines 767-843).  Apart from the
duplicate check and the animation-step recording, the code is the
analyze.py insert: attach a RED node and run the fixup.
`RBTreeAnimated._insert_fixup` (build.py lines 856-1004) differs from
`RBTree._insert_fix` (analyze.py lines 255-299) only by `_record` calls
and by guarding the final root blackening with `if self.root.color == RED`
(same result), so the shared `insFix` embeds both. -/
def bInsert (key : Int) (t : RBTree) : RBTree :=
  match descendB key t [] with
  | none => t
  | some ctx => insFix (.node key RED .nil .nil) ctx

/-- `RBTreeAnimated.delete` (build.py lines 1086-1161) together with
`_delete_fixup` (lines 1185-1322) performs exactly the pointer updates of
`RBTree.delete`/`_delete_fix` in analyze.py: the differences are `_record`
calls, a `True`/`False` return value, and writing the nephew-color tests
as `w.left == self.NIL or w.left.color == BLACK` (equivalent, since the
sentinel is BLACK) with the corresponding recolorings guarded by
`!= self.NIL` (equivalent, since recoloring the sentinel BLACK is a
no-op).  Hence the embedding is the shared `rbDelete`. -/
def bDelete (key : Int) (t : RBTree) : RBTree :=
  rbDelete key t

/-- Replay of a step list against a fresh `RBTreeAnimated`. -/
def bExecSteps (steps : List Step) : RBTree :=
  steps.foldl (fun t s => match s.1 with
    | .INSERT => bInsert s.2.1 t
    | .DELETE => bDelete s.2.1 t) .nil

/-- `t = RBTree(); for k in perm: t.insert(k)` (worker, analyze.py lines
1850-1852). -/
def insertSeq (perm : List Int) : RBTree :=
  perm.foldl (fun t k => rbInsert k t) .nil

/-- The DIRECT branch of the search worker (analyze.py lines 1841-1856,
no prefix filter): enumerate every permutation of the elements and record
those whose pure-insert execution fingerprint equals the target
fingerprint.  `itertools.permutations` over distinct elements is the set
of all reorderings, embedded as `List.permutations`. -/
def directSearch (elems : List Int) (target : Fp) : List (List Int) :=
  elems.permutations.filter (fun p => toTuple (insertSeq p) = target)

/-- The step list recorded for a DIRECT match (analyze.py line 1855):
`steps = [("INSERT", k, False) for k in perm]`. -/
def directSteps (perm : List Int) : List Step :=
  perm.map (fun k => (Act.INSERT, k, false))

/-- One candidate helper sequence (worker, analyze.py lines 1880-1891):
for `si` in `0 .. n+1`, emit the helper INSERT at `si = ins_pos`, the
helper DELETE at `si = del_pos`, and otherwise the next main insert while
any remain.  `go` counts `si` down from `n + 2`, carrying the remaining
main keys. -/
def helperStepsGo (hval : Int) (insPos delPos : Nat) : Nat → Nat → List Int → List Step
  | 0, _, _ => []
  | fuel + 1, si, rest =>
      if si = insPos then
        (Act.INSERT, hval, true) :: helperStepsGo hval insPos delPos fuel (si + 1) rest
      else if si = delPos then
        (Act.DELETE, hval, true) :: helperStepsGo hval insPos delPos fuel (si + 1) rest
      else
        match rest with
        | [] => helperStepsGo hval insPos delPos fuel (si + 1) []
        | k :: rest2 => (Act.INSERT, k, false) :: helperStepsGo hval insPos delPos fuel (si + 1) rest2

/-- The full helper step sequence for a permutation `pl` (`n = len(pl)`,
loop over `si in range(n + 2)`). -/
def helperSteps (pl : List Int) (hval : Int) (insPos delPos : Nat) : List Step :=
  helperStepsGo hval insPos delPos (pl.length + 2) 0 pl

/-- The prefix-filter validation of `_on_search` (analyze.py lines
1770-1809), given the already-parsed count `n` and value list `vals`
(string parsing is outside the core).  In source order: `n <= 0` is an
error; fewer than `n` values is an error; the values are then TRUNCATED
to the first `n`; a truncated value outside the element list is an error;
duplicates among the truncated values are an error.  `none` = refuse to
start, `some v` = search starts with prefix `v`. -/
def prefCheck (elems : List Int) (n : Int) (vals : List Int) : Option (List Int) :=
  if n ≤ 0 then none
  else if (vals.length : Int) < n then none
  else
    let v := vals.take n.toNat
    if v.any (fun pv => ¬ elems.contains pv) then none
    else if ¬ v.Nodup then none
    else some v

/-!
## The DP coloring sampler (`random_valid_rb_coloring`, analyze.py 669-821)

The source draws randomness with `random.randint(1, total)` and walks the
cumulative weights.  The embedding interprets the randomized program in a
weighted-outcome monad `WDist`: `randint1 total` is the uniform list of the
draws `1 .. total`, and sequencing multiplies weights.  `prob d a` is the
probability that the program produces `a`.  All other control flow is the
source's, including the cumulative-selection loops and the dead second
draw `r2`.

Probabilities are carried as exact unreduced fractions `(num, den)` over
`ℕ` (kernel-computable); `wVal` reads such a fraction back as a rational
number.
-/

/-- An exact nonnegative fraction, numerator and denominator. -/
abbrev W := Nat × Nat

/-- Fraction product. -/
def wMul (x y : W) : W := (x.1 * y.1, x.2 * y.2)

/-- Fraction sum (common-denominator form, no reduction). -/
def wAdd (x y : W) : W := (x.1 * y.2 + y.1 * x.2, x.2 * y.2)

/-- The rational value of a fraction. -/
def wVal (x : W) : ℚ := (x.1 : ℚ) / (x.2 : ℚ)

/-- Weighted outcomes: a list of (probability, value) pairs. -/
abbrev WDist (α : Type) : Type := List (W × α)

/-- Deterministic outcome. -/
def dpure {α : Type} (a : α) : WDist α := [((1, 1), a)]

/-- Sequencing: run `d`, then `f` on its outcome, multiplying weights. -/
def dbind {α β : Type} (d : WDist α) (f : α → WDist β) : WDist β :=
  (d.map (fun qa => (f qa.2).map (fun pb => (wMul qa.1 pb.1, pb.2)))).flatten

/-- Probability that the program yields `a`, as an exact fraction. -/
def probW {α : Type} [DecidableEq α] (d : WDist α) (a : α) : W :=
  ((d.filter (fun qa => qa.2 = a)).map (fun qa => qa.1)).foldr wAdd (0, 1)

/-- Probability that the program yields `a`. -/
def prob {α : Type} [DecidableEq α] (d : WDist α) (a : α) : ℚ :=
  wVal (probW d a)

/-- `random.randint(1, total)`: uniform on `1 .. total`. -/
def randint1 (total : Nat) : WDist Nat :=
  (List.range total).map (fun i => ((1, total), i + 1))

/-- A DP table `{(color, black_height): count}` in dict insertion order. -/
abbrev Table := List ((Bool × Nat) × Nat)

/-- `NULL_DP = {(BLACK, 1): 1}` (analyze.py line 702). -/
def NULLDP : Table := [((BLACK, 1), 1)]

/-- `result[key] = result.get(key, 0) + v`: update in place when present,
else append (Python dict semantics). -/
def tadd : Table → (Bool × Nat) → Nat → Table
  | [], k, v => [(k, v)]
  | (k2, v2) :: rest, k, v =>
      if k2 = k then (k2, v2 + v) :: rest else (k2, v2) :: tadd rest k v

/-- `build_dp` (analyze.py lines 705-738): bottom-up count of valid
colorings per (own color, subtree black-height).  The source memoizes per
node id; the embedding recomputes, which yields the same tables. -/
def buildDp : RBTree → Table
  | .nil => NULLDP
  | .node _ _ l r =>
    let lDp := buildDp l
    let rDp := buildDp r
    [RED, BLACK].foldl (fun tbl color =>
      let bhAdd := if color = BLACK then 1 else 0
      lDp.foldl (fun tbl le =>
        if color = RED ∧ le.1.1 = RED then tbl
        else rDp.foldl (fun tbl re =>
          if color = RED ∧ re.1.1 = RED then tbl
          else if le.1.2 ≠ re.1.2 then tbl
          else tadd tbl (color, le.1.2 + bhAdd) (le.2 * re.2)) tbl) tbl) []

/-- `cum = 0; for entry in items: cum += wt entry; if r <= cum: pick` —
the cumulative-weight selection loop used three times in the source
(`none` when the loop falls through, i.e. `r` exceeds the total). -/
def cumPick {α : Type} (wt : α → Nat) : List α → Nat → Nat → Option α
  | [], _, _ => none
  | a :: rest, cum, r =>
      if r ≤ cum + wt a then some a else cumPick wt rest (cum + wt a) r

/-- The `pairs` loop of `assign` (analyze.py lines 779-790). -/
def pairsFor (lDp rDp : Table) (color : Bool) (childBh : Nat) :
    List (Bool × Bool × Nat) :=
  (lDp.map (fun le =>
    if color = RED ∧ le.1.1 = RED then []
    else if le.1.2 ≠ childBh then []
    else rDp.filterMap (fun re =>
      if color = RED ∧ re.1.1 = RED then none
      else if re.1.2 ≠ childBh then none
      else some (le.1.1, re.1.1, le.2 * re.2)))).flatten

/-- One candidate of `assign`: (color, child_bh, total_count, pairs). -/
abbrev Cand := Bool × Nat × Nat × List (Bool × Bool × Nat)

/-- The `candidates` loop of `assign` (analyze.py lines 772-793).
`parent_color` is `None` at the root, hence `Option Bool`. -/
def candFor (lDp rDp : Table) (parentColor : Option Bool) (targetBh : Nat) :
    List Cand :=
  [RED, BLACK].filterMap (fun color =>
    if parentColor = some RED ∧ color = RED then none
    else
      let childBh := targetBh - (if color = BLACK then 1 else 0)
      if childBh < 1 then none
      else
        let pairs := pairsFor lDp rDp color childBh
        if pairs = [] then none
        else some (color, childBh, (pairs.map (fun p => p.2.2)).sum, pairs))

/-- `assign` (analyze.py lines 760-820): top-down color assignment,
drawing the node's color proportional to the count of valid completions.
Faithful details: when `candidates` is empty the node is blackened and
the children are NOT visited (they keep their input colors); the second
draw `r2` selects a child-color pair that the source then never uses (the
loop `break`s and the recursion passes only `color, child_bh`), so the
draw is performed and discarded.  The unreachable `cumPick` miss (`r`
beyond the cumulative total) keeps the input node as the source's
fall-through would. -/
def assign : RBTree → Option Bool → Nat → WDist RBTree
  | .nil, _, _ => dpure .nil
  | .node k c l r, parentColor, targetBh =>
    let lDp := buildDp l
    let rDp := buildDp r
    let candidates := candFor lDp rDp parentColor targetBh
    if candidates.isEmpty then dpure (.node k BLACK l r)
    else
      let tot := (candidates.map (fun cd => cd.2.2.1)).sum
      dbind (randint1 tot) (fun r1 =>
        match cumPick (fun cd => cd.2.2.1) candidates 0 r1 with
        | none => dpure (.node k c l r)
        | some (color, childBh, _, pairs) =>
          let tot2 := (pairs.map (fun p => p.2.2)).sum
          dbind (randint1 tot2) (fun _ =>
            dbind (assign l (some color) childBh) (fun l2 =>
              dbind (assign r (some color) childBh) (fun r2 =>
                dpure (.node k color l2 r2)))))

/-- `for nd in nodes: nd.color = BLACK` (the fallback, lines 744-746). -/
def allBlack : RBTree → RBTree
  | .nil => .nil
  | .node k _ l r => .node k BLACK (allBlack l) (allBlack r)

/-- `random_valid_rb_coloring` (analyze.py lines 669-821): build the DP
tables, restrict the root's table to BLACK entries, fall back to the
all-BLACK coloring when that restriction is empty, otherwise draw the
root black-height by weight, run `assign` from the root (with
`parent_color = None`) and force the root BLACK. -/
def rvrc (root : RBTree) : WDist RBTree :=
  match root with
  | .nil => dpure .nil
  | .node k c l r =>
    let rootDp := buildDp (.node k c l r)
    let valid := rootDp.filter (fun e => e.1.1 = BLACK)
    if valid = [] then dpure (allBlack (.node k c l r))
    else
      let total := (valid.map (fun e => e.2)).sum
      dbind (randint1 total) (fun rr =>
        let rootBh := match cumPick (fun e => e.2) valid 0 rr with
          | some e => e.1.2
          | none => 0
        dbind (assign (.node k c l r) none rootBh) (fun t2 =>
          dpure (setBlack t2)))

/-!
## Red-black invariants

`Bal t c n` is the classic combined invariant: `t` has no RED node with a
RED child, every path from `t` to a sentinel passes through `n` BLACK
nodes counting the sentinel (the source's convention: `validate_rb_tree`
gives NIL black-height 1), and `c` is the color of `t`'s root (`BLACK`
for the sentinel).  A RED root requires BLACK-rooted children.
-/

/-- Balance: no red-red violation and uniform black-height `n`, with root
color `c`. -/
inductive Bal : RBTree → Bool → Nat → Prop where
  | nil : Bal .nil BLACK 1
  | red {k : Int} {l r : RBTree} {n : Nat} :
      Bal l BLACK n → Bal r BLACK n → Bal (.node k RED l r) RED n
  | black {k : Int} {c1 c2 : Bool} {l r : RBTree} {n : Nat} :
      Bal l c1 n → Bal r c2 n → Bal (.node k BLACK l r) BLACK (n + 1)

/-- Invariant 2 checker: root BLACK or the tree empty. -/
def rootBlackOk (t : RBTree) : Bool := colorOf t = BLACK

/-- Invariant 4 checker: no RED node has a RED child. -/
def noRedRed : RBTree → Bool
  | .nil => true
  | .node _ c l r =>
      (!(c = RED ∧ (colorOf l = RED ∨ colorOf r = RED) : Bool)) &&
        noRedRed l && noRedRed r

/-- Black-count of every path to a sentinel (sentinel included), when all
such counts agree; `none` on a black-height violation (invariant 5). -/
def bhOf : RBTree → Option Nat
  | .nil => some 1
  | .node _ c l r =>
      match bhOf l, bhOf r with
      | some a, some b =>
          if a = b then some (a + (if c = BLACK then 1 else 0)) else none
      | _, _ => none

/-- Invariant 5 checker. -/
def bhOk (t : RBTree) : Bool := (bhOf t).isSome

/-- The root color of a balanced tree is its color index. -/
theorem bal_colorOf {t : RBTree} {c : Bool} {n : Nat} (h : Bal t c n) :
    colorOf t = c := by
  cases h <;> rfl

/-- Black-heights are positive. -/
theorem bal_pos {t : RBTree} {c : Bool} {n : Nat} (h : Bal t c n) : 1 ≤ n := by
  induction h with
  | nil => exact le_refl 1
  | red hl hr ihl ihr => exact ihl
  | black hl hr ihl ihr => exact Nat.le_succ_of_le ihl

/-- The only BLACK-rooted tree of black-height 1 is the sentinel. -/
theorem bal_black_one {t : RBTree} (h : Bal t BLACK 1) : t = .nil := by
  cases h with
  | nil => rfl
  | black hl hr => exact absurd (bal_pos hl) (by omega)

/-- A balanced tree passes the invariant checkers. -/
theorem bal_checks {t : RBTree} {c : Bool} {n : Nat} (h : Bal t c n) :
    noRedRed t = true ∧ bhOf t = some n := by
  induction h with
  | nil => exact ⟨rfl, rfl⟩
  | @red k l r n hl hr ihl ihr =>
    refine ⟨?_, ?_⟩
    · simp only [noRedRed, ihl.1, ihr.1, bal_colorOf hl, bal_colorOf hr]
      simp [RED, BLACK]
    · simp only [bhOf, ihl.2, ihr.2]
      simp [RED, BLACK]
  | @black k c1 c2 l r n hl hr ihl ihr =>
    refine ⟨?_, ?_⟩
    · simp only [noRedRed, ihl.1, ihr.1]
      simp [RED, BLACK]
    · simp only [bhOf, ihl.2, ihr.2]
      simp [RED, BLACK]

/-!
## Context validity

`CtxB ctx pc n q M`: the context `ctx` is internally valid; its hole
expects a subtree of black-height `n` whose root must be BLACK whenever
`pc = RED` (`pc` is the color of the innermost frame, `BLACK` when the
context is empty or its innermost frame is BLACK); `q` is the color
promise exported at the outer end (used to concatenate contexts), and
plugging a fitting subtree produces a tree of black-height `M`.
-/

/-- Context validity (see section comment). -/
inductive CtxB : Ctx → Bool → Nat → Bool → Nat → Prop where
  | root {pc : Bool} {n : Nat} : CtxB [] pc n pc n
  | blackL {ctx : Ctx} {pc2 q : Bool} {k : Int} {o : RBTree} {co : Bool} {n M : Nat} :
      Bal o co n → CtxB ctx pc2 (n + 1) q M →
      CtxB (⟨.L, k, BLACK, o⟩ :: ctx) BLACK n q M
  | blackR {ctx : Ctx} {pc2 q : Bool} {k : Int} {o : RBTree} {co : Bool} {n M : Nat} :
      Bal o co n → CtxB ctx pc2 (n + 1) q M →
      CtxB (⟨.R, k, BLACK, o⟩ :: ctx) BLACK n q M
  | redL {ctx : Ctx} {q : Bool} {k : Int} {o : RBTree} {n M : Nat} :
      Bal o BLACK n → CtxB ctx BLACK n q M →
      CtxB (⟨.L, k, RED, o⟩ :: ctx) RED n q M
  | redR {ctx : Ctx} {q : Bool} {k : Int} {o : RBTree} {n M : Nat} :
      Bal o BLACK n → CtxB ctx BLACK n q M →
      CtxB (⟨.R, k, RED, o⟩ :: ctx) RED n q M

/-- Color of the root of `plug t ctx` given the color of `t`. -/
def plugColor (ctx : Ctx) (c : Bool) : Bool :=
  match ctx with
  | [] => c
  | f :: ctx2 => plugColor ctx2 f.color

/-- The outermost frame of the context (the original root), when any, is
BLACK. -/
def lastBlack : Ctx → Prop
  | [] => True
  | [f] => f.color = BLACK
  | _ :: f2 :: ctx => lastBlack (f2 :: ctx)

theorem lastBlack_cons {f : Frame} {ctx : Ctx} (h : lastBlack (f :: ctx))
    (hne : ctx ≠ []) : lastBlack ctx := by
  rcases ctx with _ | ⟨f2, ctx2⟩
  · exact absurd rfl hne
  · exact h

theorem lastBlack_cons_of {f : Frame} {ctx : Ctx} (hf : f.color = BLACK)
    (h : lastBlack ctx) : lastBlack (f :: ctx) := by
  rcases ctx with _ | ⟨f2, ctx2⟩
  · exact hf
  · exact h

theorem plugColor_black {ctx : Ctx} (h : lastBlack ctx) :
    plugColor ctx BLACK = BLACK := by
  induction ctx with
  | nil => rfl
  | cons f ctx2 ih =>
    show plugColor ctx2 f.color = BLACK
    rcases ctx2 with _ | ⟨f2, ctx3⟩
    · exact h
    · exact ih h

/-- Plugging a fitting subtree into a valid context yields a balanced
tree whose root color is `plugColor`. -/
theorem plug_bal {ctx : Ctx} {pc : Bool} {n : Nat} {q : Bool} {M : Nat}
    (H : CtxB ctx pc n q M) :
    ∀ {t : RBTree} {c : Bool}, Bal t c n → (pc = RED → c = BLACK) →
      Bal (plug t ctx) (plugColor ctx c) M := by
  induction H with
  | root => intro t c hb _; exact hb
  | blackL ho Htl ih =>
    intro t c hb _
    exact ih (Bal.black hb ho) (fun h => rfl)
  | blackR ho Htl ih =>
    intro t c hb _
    exact ih (Bal.black ho hb) (fun h => rfl)
  | redL ho Htl ih =>
    intro t c hb hpc
    have hc := hpc rfl
    subst hc
    exact ih (Bal.red hb ho) (by simp [BLACK, RED])
  | redR ho Htl ih =>
    intro t c hb hpc
    have hc := hpc rfl
    subst hc
    exact ih (Bal.red ho hb) (by simp [BLACK, RED])

/-- Contexts concatenate. -/
theorem ctxB_append {c1 : Ctx} {p1 : Bool} {n : Nat} {q : Bool} {M : Nat}
    (h1 : CtxB c1 p1 n q M) :
    ∀ {c2 : Ctx} {q2 : Bool} {N : Nat}, CtxB c2 q M q2 N →
      CtxB (c1 ++ c2) p1 n q2 N := by
  induction h1 with
  | root => intro c2 q2 N h2; simpa using h2
  | blackL ho Htl ih => intro c2 q2 N h2; exact CtxB.blackL ho (ih h2)
  | blackR ho Htl ih => intro c2 q2 N h2; exact CtxB.blackR ho (ih h2)
  | redL ho Htl ih => intro c2 q2 N h2; exact CtxB.redL ho (ih h2)
  | redR ho Htl ih => intro c2 q2 N h2; exact CtxB.redR ho (ih h2)

/-- Blackening the root preserves balance (possibly raising the height). -/
theorem setBlack_bal {t : RBTree} {c : Bool} {n : Nat} (h : Bal t c n) :
    ∃ m : Nat, Bal (setBlack t) BLACK m := by
  cases h with
  | nil => exact ⟨1, Bal.nil⟩
  | red hl hr => exact ⟨_, Bal.black hl hr⟩
  | black hl hr => exact ⟨_, Bal.black hl hr⟩


theorem bal_nil_inv {c : Bool} {n : Nat} (h : Bal .nil c n) : c = BLACK ∧ n = 1 := by
  cases h
  exact ⟨rfl, rfl⟩

theorem bal_red_inv {k : Int} {l r : RBTree} {c : Bool} {n : Nat}
    (h : Bal (.node k true l r) c n) : c = RED ∧ Bal l BLACK n ∧ Bal r BLACK n := by
  cases h with
  | red hl hr => exact ⟨rfl, hl, hr⟩

theorem bal_black_inv {k : Int} {l r : RBTree} {c : Bool} {n : Nat}
    (h : Bal (.node k false l r) c n) :
    c = BLACK ∧ ∃ c1 c2 m, n = m + 1 ∧ Bal l c1 m ∧ Bal r c2 m := by
  cases h with
  | black hl hr => exact ⟨rfl, _, _, _, rfl, hl, hr⟩

/-- The insert descent turns a valid context for the whole tree into a
valid context for the sentinel position where the new node is attached. -/
theorem descend_ctxB {t : RBTree} {c : Bool} {n : Nat} (hb : Bal t c n) :
    ∀ {acc : Ctx} {pc q : Bool} {M : Nat} (key : Int),
    CtxB acc pc n q M → (pc = RED → c = BLACK) →
    ∃ pc2, CtxB (descend key t acc) pc2 1 q M := by
  induction hb with
  | nil =>
    intro acc pc q M key H _
    exact ⟨pc, H⟩
  | @red k l r m hl hr ihl ihr =>
    intro acc pc q M key H hpc
    have hpcb : pc = BLACK := by
      cases pc
      · rfl
      · exact absurd (hpc rfl) (by simp [RED, BLACK])
    subst hpcb
    show ∃ pc2, CtxB (if key < k then _ else _) pc2 1 q M
    by_cases hk : key < k
    · simp only [hk, if_true]
      exact ihl key (CtxB.redL hr H) (fun _ => rfl)
    · simp only [hk, if_false]
      exact ihr key (CtxB.redR hl H) (fun _ => rfl)
  | @black k c1 c2 l r m hl hr ihl ihr =>
    intro acc pc q M key H _
    show ∃ pc2, CtxB (if key < k then _ else _) pc2 1 q M
    by_cases hk : key < k
    · simp only [hk, if_true]
      exact ihl key (CtxB.blackL hr H) (by simp [RED, BLACK])
    · simp only [hk, if_false]
      exact ihr key (CtxB.blackR hl H) (by simp [RED, BLACK])

/-- Insert-fixup restores balance: with a valid context whose hole
expects height `n` and a RED balanced focus of height `n`, the fixed-up
tree (root blackened) is balanced. -/
theorem insFix_bal_aux : ∀ (B : Nat) (ctx : Ctx), ctx.length ≤ B →
    ∀ {pc : Bool} {n : Nat} {q : Bool} {M : Nat} {z : RBTree},
    CtxB ctx pc n q M → Bal z RED n → ∃ M2, Bal (insFix z ctx) BLACK M2 := by
  intro B
  induction B with
  | zero =>
    intro ctx hlen pc n q M z H hz
    have hctx : ctx = [] := by
      cases ctx
      · rfl
      · simp at hlen
    subst hctx
    exact setBlack_bal hz
  | succ B ih =>
    intro ctx hlen pc n q M z H hz
    rcases ctx with _ | ⟨f, rest⟩
    · exact setBlack_bal hz
    cases H with
    | @blackL _ pc3 _ fk fo fco _ _ ho Htl =>
      have he : insFix z (⟨.L, fk, BLACK, fo⟩ :: rest) =
          setBlack (plug z (⟨.L, fk, BLACK, fo⟩ :: rest)) := by
        rcases rest with _ | ⟨⟨d2, gk, gc, u⟩, rest2⟩ <;> simp [insFix, BLACK]
      rw [he]
      exact setBlack_bal (plug_bal (CtxB.blackL ho Htl) hz (by simp [RED, BLACK]))
    | @blackR _ pc3 _ fk fo fco _ _ ho Htl =>
      have he : insFix z (⟨.R, fk, BLACK, fo⟩ :: rest) =
          setBlack (plug z (⟨.R, fk, BLACK, fo⟩ :: rest)) := by
        rcases rest with _ | ⟨⟨d2, gk, gc, u⟩, rest2⟩ <;> simp [insFix, BLACK]
      rw [he]
      exact setBlack_bal (plug_bal (CtxB.blackR ho Htl) hz (by simp [RED, BLACK]))
    | @redL _ _ pk ps _ _ ho Htl =>
      cases hz with
      | @red zk zl zr _ hzl hzr =>
      rcases rest with _ | ⟨g, rest2⟩
      · cases Htl
        refine ⟨n + 1, ?_⟩
        show Bal (insFix _ [⟨.L, pk, RED, ps⟩]) BLACK (n + 1)
        simp only [insFix, RED, BLACK, plug, setBlack, reduceIte]
        exact Bal.black (Bal.red hzl hzr) ho
      · cases Htl with
        | @blackL _ pc3 _ gk u cu _ _ hu Htl2 =>
          rcases u with _ | ⟨uk, ucol, ul, ur⟩
          · obtain ⟨-, hn1⟩ := bal_nil_inv hu
            subst hn1
            have he : insFix (RBTree.node zk RED zl zr)
                (⟨.L, pk, RED, ps⟩ :: ⟨.L, gk, BLACK, .nil⟩ :: rest2) =
                setBlack (plug (.node pk BLACK (.node zk true zl zr)
                  (.node gk RED ps .nil)) rest2) := by
              simp [insFix, RED, BLACK]
            rw [he]
            exact setBlack_bal (plug_bal Htl2
              (Bal.black (Bal.red hzl hzr) (Bal.red ho Bal.nil)) (by simp [RED, BLACK]))
          · cases ucol
            · have hcu := bal_colorOf hu
              simp [colorOf, BLACK] at hcu
              subst hcu
              have he : insFix (RBTree.node zk RED zl zr)
                  (⟨.L, pk, RED, ps⟩ :: ⟨.L, gk, BLACK, .node uk false ul ur⟩ :: rest2) =
                  setBlack (plug (.node pk BLACK (.node zk true zl zr)
                    (.node gk RED ps (.node uk false ul ur))) rest2) := by
                simp [insFix, RED, BLACK]
              rw [he]
              exact setBlack_bal (plug_bal Htl2
                (Bal.black (Bal.red hzl hzr) (Bal.red ho hu)) (by simp [RED, BLACK]))
            · obtain ⟨-, hul, hur⟩ := bal_red_inv hu
              have he : insFix (RBTree.node zk RED zl zr)
                  (⟨.L, pk, RED, ps⟩ :: ⟨.L, gk, BLACK, .node uk true ul ur⟩ :: rest2) =
                  insFix (.node gk RED (.node pk BLACK (.node zk true zl zr) ps)
                    (.node uk BLACK ul ur)) rest2 := by
                simp [insFix, RED, BLACK]
              rw [he]
              exact ih rest2 (by simp at hlen; omega) Htl2
                (Bal.red (Bal.black (Bal.red hzl hzr) ho) (Bal.black hul hur))
        | @blackR _ pc3 _ gk u cu _ _ hu Htl2 =>
          rcases u with _ | ⟨uk, ucol, ul, ur⟩
          · obtain ⟨-, hn1⟩ := bal_nil_inv hu
            subst hn1
            have he : insFix (RBTree.node zk RED zl zr)
                (⟨.L, pk, RED, ps⟩ :: ⟨.R, gk, BLACK, .nil⟩ :: rest2) =
                setBlack (plug (.node zk BLACK (.node gk RED .nil zl)
                  (.node pk RED zr ps)) rest2) := by
              simp [insFix, RED, BLACK]
            rw [he]
            exact setBlack_bal (plug_bal Htl2
              (Bal.black (Bal.red Bal.nil hzl) (Bal.red hzr ho)) (by simp [RED, BLACK]))
          · cases ucol
            · have hcu := bal_colorOf hu
              simp [colorOf, BLACK] at hcu
              subst hcu
              have he : insFix (RBTree.node zk RED zl zr)
                  (⟨.L, pk, RED, ps⟩ :: ⟨.R, gk, BLACK, .node uk false ul ur⟩ :: rest2) =
                  setBlack (plug (.node zk BLACK (.node gk RED (.node uk false ul ur) zl)
                    (.node pk RED zr ps)) rest2) := by
                simp [insFix, RED, BLACK]
              rw [he]
              exact setBlack_bal (plug_bal Htl2
                (Bal.black (Bal.red hu hzl) (Bal.red hzr ho)) (by simp [RED, BLACK]))
            · obtain ⟨-, hul, hur⟩ := bal_red_inv hu
              have he : insFix (RBTree.node zk RED zl zr)
                  (⟨.L, pk, RED, ps⟩ :: ⟨.R, gk, BLACK, .node uk true ul ur⟩ :: rest2) =
                  insFix (.node gk RED (.node uk BLACK ul ur)
                    (.node pk BLACK (.node zk true zl zr) ps)) rest2 := by
                simp [insFix, RED, BLACK]
              rw [he]
              exact ih rest2 (by simp at hlen; omega) Htl2
                (Bal.red (Bal.black hul hur) (Bal.black (Bal.red hzl hzr) ho))
    | @redR _ _ pk ps _ _ ho Htl =>
      cases hz with
      | @red zk zl zr _ hzl hzr =>
      rcases rest with _ | ⟨g, rest2⟩
      · cases Htl
        refine ⟨n + 1, ?_⟩
        show Bal (insFix _ [⟨.R, pk, RED, ps⟩]) BLACK (n + 1)
        simp only [insFix, RED, BLACK, plug, setBlack, reduceIte]
        exact Bal.black ho (Bal.red hzl hzr)
      · cases Htl with
        | @blackL _ pc3 _ gk u cu _ _ hu Htl2 =>
          rcases u with _ | ⟨uk, ucol, ul, ur⟩
          · obtain ⟨-, hn1⟩ := bal_nil_inv hu
            subst hn1
            have he : insFix (RBTree.node zk RED zl zr)
                (⟨.R, pk, RED, ps⟩ :: ⟨.L, gk, BLACK, .nil⟩ :: rest2) =
                setBlack (plug (.node zk BLACK (.node pk RED ps zl)
                  (.node gk RED zr .nil)) rest2) := by
              simp [insFix, RED, BLACK]
            rw [he]
            exact setBlack_bal (plug_bal Htl2
              (Bal.black (Bal.red ho hzl) (Bal.red hzr Bal.nil)) (by simp [RED, BLACK]))
          · cases ucol
            · have hcu := bal_colorOf hu
              simp [colorOf, BLACK] at hcu
              subst hcu
              have he : insFix (RBTree.node zk RED zl zr)
                  (⟨.R, pk, RED, ps⟩ :: ⟨.L, gk, BLACK, .node uk false ul ur⟩ :: rest2) =
                  setBlack (plug (.node zk BLACK (.node pk RED ps zl)
                    (.node gk RED zr (.node uk false ul ur))) rest2) := by
                simp [insFix, RED, BLACK]
              rw [he]
              exact setBlack_bal (plug_bal Htl2
                (Bal.black (Bal.red ho hzl) (Bal.red hzr hu)) (by simp [RED, BLACK]))
            · obtain ⟨-, hul, hur⟩ := bal_red_inv hu
              have he : insFix (RBTree.node zk RED zl zr)
                  (⟨.R, pk, RED, ps⟩ :: ⟨.L, gk, BLACK, .node uk true ul ur⟩ :: rest2) =
                  insFix (.node gk RED (.node pk BLACK ps (.node zk true zl zr))
                    (.node uk BLACK ul ur)) rest2 := by
                simp [insFix, RED, BLACK]
              rw [he]
              exact ih rest2 (by simp at hlen; omega) Htl2
                (Bal.red (Bal.black ho (Bal.red hzl hzr)) (Bal.black hul hur))
        | @blackR _ pc3 _ gk u cu _ _ hu Htl2 =>
          rcases u with _ | ⟨uk, ucol, ul, ur⟩
          · obtain ⟨-, hn1⟩ := bal_nil_inv hu
            subst hn1
            have he : insFix (RBTree.node zk RED zl zr)
                (⟨.R, pk, RED, ps⟩ :: ⟨.R, gk, BLACK, .nil⟩ :: rest2) =
                setBlack (plug (.node pk BLACK (.node gk RED .nil ps)
                  (.node zk true zl zr)) rest2) := by
              simp [insFix, RED, BLACK]
            rw [he]
            exact setBlack_bal (plug_bal Htl2
              (Bal.black (Bal.red Bal.nil ho) (Bal.red hzl hzr)) (by simp [RED, BLACK]))
          · cases ucol
            · have hcu := bal_colorOf hu
              simp [colorOf, BLACK] at hcu
              subst hcu
              have he : insFix (RBTree.node zk RED zl zr)
                  (⟨.R, pk, RED, ps⟩ :: ⟨.R, gk, BLACK, .node uk false ul ur⟩ :: rest2) =
                  setBlack (plug (.node pk BLACK (.node gk RED (.node uk false ul ur) ps)
                    (.node zk true zl zr)) rest2) := by
                simp [insFix, RED, BLACK]
              rw [he]
              exact setBlack_bal (plug_bal Htl2
                (Bal.black (Bal.red hu ho) (Bal.red hzl hzr)) (by simp [RED, BLACK]))
            · obtain ⟨-, hul, hur⟩ := bal_red_inv hu
              have he : insFix (RBTree.node zk RED zl zr)
                  (⟨.R, pk, RED, ps⟩ :: ⟨.R, gk, BLACK, .node uk true ul ur⟩ :: rest2) =
                  insFix (.node gk RED (.node uk BLACK ul ur)
                    (.node pk BLACK ps (.node zk true zl zr))) rest2 := by
                simp [insFix, RED, BLACK]
              rw [he]
              exact ih rest2 (by simp at hlen; omega) Htl2
                (Bal.red (Bal.black hul hur) (Bal.black ho (Bal.red hzl hzr)))

/-- Insert preserves balance and forces a BLACK root. -/
theorem rbInsert_bal {t : RBTree} {c : Bool} {n : Nat} (h : Bal t c n)
    (key : Int) : ∃ M, Bal (rbInsert key t) BLACK M := by
  obtain ⟨pc2, H⟩ := descend_ctxB h key ((CtxB.root : CtxB [] BLACK _ BLACK _)) (by simp [RED, BLACK])
  exact insFix_bal_aux (descend key t []).length _ (le_refl _) H (Bal.red Bal.nil Bal.nil)

theorem lastBlack_tail {f : Frame} {ctx : Ctx} (h : lastBlack (f :: ctx)) :
    lastBlack ctx := by
  rcases ctx with _ | ⟨f2, ctx2⟩
  · trivial
  · exact h

theorem lastBlack_extend {f : Frame} {ctx : Ctx} (h : lastBlack ctx)
    (hf : ctx = [] → f.color = BLACK) : lastBlack (f :: ctx) := by
  rcases ctx with _ | ⟨f2, ctx2⟩
  · exact hf rfl
  · exact h

/-- A RED focus exits the delete-fixup loop immediately and is blackened. -/
theorem delFix_red {x : RBTree} (hx : colorOf x = RED) :
    ∀ ctx : Ctx, delFix x ctx = plug (setBlack x) ctx := by
  intro ctx
  rcases ctx with _ | ⟨⟨d1, pk, pc, w⟩, rest⟩
  · rfl
  · rcases d1 <;> simp [delFix, hx]


@[simp] theorem colorOf_nil : colorOf .nil = BLACK := rfl

@[simp] theorem colorOf_node {k : Int} {c : Bool} {l r : RBTree} :
    colorOf (.node k c l r) = c := rfl

/-- Delete-fixup restores balance: the context expects height `n + 1` at
the hole, the focus is one black unit short (height `n`), and the result
is balanced with a BLACK root. -/
theorem delFix_bal : ∀ (ctx : Ctx) {pc : Bool} {n : Nat} {q : Bool} {M : Nat}
    {x : RBTree} {cx : Bool},
    CtxB ctx pc (n + 1) q M → Bal x cx n → lastBlack ctx →
    ∃ M2, Bal (delFix x ctx) BLACK M2 := by
  intro ctx
  induction ctx with
  | nil =>
    intro pc n q M x cx H hx LB
    exact setBlack_bal hx
  | cons f rest ih =>
    intro pc n q M x cx H hx LB
    by_cases hxr : colorOf x = RED
    · rw [delFix_red hxr]
      have hcx : cx = RED := by rw [← bal_colorOf hx, hxr]
      subst hcx
      have hx2 : Bal (setBlack x) BLACK (n + 1) := by
        cases hx with
        | red hl hr => exact Bal.black hl hr
      have hp := plug_bal H hx2 (by simp [RED, BLACK])
      rw [plugColor_black LB] at hp
      exact ⟨M, hp⟩
    · have hcx : cx = BLACK := by
        rw [← bal_colorOf hx]
        cases hc : colorOf x
        · rfl
        · exact absurd (by simpa [RED] using hc) hxr
      subst hcx
      have hxpos := bal_pos hx
      cases H with
      | @blackL _ pc3 _ pk w cw _ _ hw Htl =>
        rcases w with _ | ⟨wk, wcol, wl, wr⟩
        · obtain ⟨-, h1⟩ := bal_nil_inv hw
          omega
        · cases wcol
          · -- sibling BLACK: cases 2/3/4 with parent color BLACK
            obtain ⟨-, c1, c2, m, hm, hwl, hwr⟩ := bal_black_inv hw
            have hmn : n = m := by omega
            subst hmn
            by_cases h2 : colorOf wl = BLACK ∧ colorOf wr = BLACK
            · -- Case 2
              have he : delFix x (⟨.L, pk, BLACK, .node wk false wl wr⟩ :: rest) =
                  delFix (.node pk BLACK x (.node wk RED wl wr)) rest := by
                simp only [delFix]; rw [if_neg hxr]; simp [colorOf_node, colorOf_nil, BLACK, RED, h2.1, h2.2]
              rw [he]
              have hc1 : c1 = BLACK := by rw [← bal_colorOf hwl, h2.1]
              have hc2 : c2 = BLACK := by rw [← bal_colorOf hwr, h2.2]
              subst hc1; subst hc2
              exact ih Htl (Bal.black hx (Bal.red hwl hwr)) (lastBlack_tail LB)
            · by_cases h4 : colorOf wr = BLACK
              · -- Case 3 then 4: near nephew wl is RED
                have hslr : colorOf wl = RED := by
                  cases hc : colorOf wl
                  · exact absurd ⟨hc, h4⟩ h2
                  · rfl
                rcases wl with _ | ⟨nk, ncol, nl, nr⟩
                · simp [colorOf, RED, BLACK] at hslr
                · have hnc : ncol = true := hslr
                  subst hnc
                  obtain ⟨-, hnl, hnr⟩ := bal_red_inv hwl
                  have he : delFix x (⟨.L, pk, BLACK, .node wk false (.node nk true nl nr) wr⟩ :: rest) =
                      setBlack (plug (.node nk BLACK (.node pk BLACK x nl)
                        (setBlack (.node wk RED nr wr))) rest) := by
                    simp only [delFix]; rw [if_neg hxr]; simp [colorOf_node, colorOf_nil, BLACK, RED, h4]
                  rw [he]
                  have hsub : Bal (.node nk BLACK (.node pk BLACK x nl)
                      (.node wk BLACK nr wr)) BLACK (n + 2) :=
                    Bal.black (Bal.black hx hnl) (Bal.black hnr hwr)
                  exact setBlack_bal (plug_bal Htl hsub (by simp [RED, BLACK]))
              · -- Case 4 directly: far nephew wr is RED
                rcases wr with _ | ⟨rk, rcol, rl, rr⟩
                · exact absurd rfl h4
                · have hrc : rcol = true := by
                    cases rcol
                    · exact absurd rfl h4
                    · rfl
                  subst hrc
                  obtain ⟨-, hrl, hrr⟩ := bal_red_inv hwr
                  have he : delFix x (⟨.L, pk, BLACK, .node wk false wl (.node rk true rl rr)⟩ :: rest) =
                      setBlack (plug (.node wk BLACK (.node pk BLACK x wl)
                        (setBlack (.node rk true rl rr))) rest) := by
                    simp only [delFix]; rw [if_neg hxr]; simp [colorOf_node, colorOf_nil, BLACK, RED]
                  rw [he]
                  have hsub : Bal (.node wk BLACK (.node pk BLACK x wl)
                      (.node rk BLACK rl rr)) BLACK (n + 2) :=
                    Bal.black (Bal.black hx hwl) (Bal.black hrl hrr)
                  exact setBlack_bal (plug_bal Htl hsub (by simp [RED, BLACK]))
          · -- Case 1: sibling RED
            obtain ⟨-, hwl, hwr⟩ := bal_red_inv hw
            rcases wl with _ | ⟨sk, scol, sl, sr⟩
            · obtain ⟨-, h1⟩ := bal_nil_inv hwl
              omega
            · have hsc : scol = false := bal_colorOf hwl
              subst hsc
              obtain ⟨-, c1, c2, m, hm, hsl, hsr⟩ := bal_black_inv hwl
              have hmn : n = m := by omega
              subst hmn
              by_cases h2 : colorOf sl = BLACK ∧ colorOf sr = BLACK
              · -- case 1 then case 2; the RED parent exits and is blackened
                have he : delFix x (⟨.L, pk, BLACK, .node wk true (.node sk false sl sr) wr⟩ :: rest) =
                    plug (.node pk BLACK x (.node sk RED sl sr))
                      (⟨.L, wk, BLACK, wr⟩ :: rest) := by
                  simp only [delFix]; rw [if_neg hxr]; simp [colorOf_node, colorOf_nil, BLACK, RED, h2.1, h2.2]
                rw [he]
                have hc1 : c1 = BLACK := by rw [← bal_colorOf hsl, h2.1]
                have hc2 : c2 = BLACK := by rw [← bal_colorOf hsr, h2.2]
                subst hc1; subst hc2
                have hsub : Bal (.node pk BLACK x (.node sk RED sl sr)) BLACK (n + 1) :=
                  Bal.black hx (Bal.red hsl hsr)
                have hctx2 : CtxB (⟨.L, wk, BLACK, wr⟩ :: rest) BLACK (n + 1) q M :=
                  CtxB.blackL hwr Htl
                have hp := plug_bal hctx2 hsub (by simp [RED, BLACK])
                rw [plugColor_black (lastBlack_extend (lastBlack_tail LB) (fun _ => rfl))] at hp
                exact ⟨M, hp⟩
              · by_cases h4 : colorOf sr = BLACK
                · -- case 1, case 3, case 4
                  have hslr : colorOf sl = RED := by
                    cases hc : colorOf sl
                    · exact absurd ⟨hc, h4⟩ h2
                    · rfl
                  rcases sl with _ | ⟨nk, ncol, nl, nr⟩
                  · simp [colorOf, RED, BLACK] at hslr
                  · have hnc : ncol = true := hslr
                    subst hnc
                    obtain ⟨-, hnl, hnr⟩ := bal_red_inv hsl
                    have he : delFix x (⟨.L, pk, BLACK,
                        .node wk true (.node sk false (.node nk true nl nr) sr) wr⟩ :: rest) =
                        setBlack (plug (.node nk RED (.node pk BLACK x nl)
                          (setBlack (.node sk RED nr sr))) (⟨.L, wk, BLACK, wr⟩ :: rest)) := by
                      simp only [delFix]; rw [if_neg hxr]; simp [colorOf_node, colorOf_nil, BLACK, RED, h4]
                    rw [he]
                    have hsub : Bal (.node nk RED (.node pk BLACK x nl)
                        (.node sk BLACK nr sr)) RED (n + 1) :=
                      Bal.red (Bal.black hx hnl) (Bal.black hnr hsr)
                    have hctx2 : CtxB (⟨.L, wk, BLACK, wr⟩ :: rest) BLACK (n + 1) q M :=
                      CtxB.blackL hwr Htl
                    exact setBlack_bal (plug_bal hctx2 hsub (by simp [RED, BLACK]))
                · -- case 1 then case 4 directly
                  rcases sr with _ | ⟨rk, rcol, rl, rr⟩
                  · exact absurd rfl h4
                  · have hrc : rcol = true := by
                      cases rcol
                      · exact absurd rfl h4
                      · rfl
                    subst hrc
                    obtain ⟨-, hrl, hrr⟩ := bal_red_inv hsr
                    have he : delFix x (⟨.L, pk, BLACK,
                        .node wk true (.node sk false sl (.node rk true rl rr)) wr⟩ :: rest) =
                        setBlack (plug (.node sk RED (.node pk BLACK x sl)
                          (setBlack (.node rk true rl rr))) (⟨.L, wk, BLACK, wr⟩ :: rest)) := by
                      simp only [delFix]; rw [if_neg hxr]; simp [colorOf_node, colorOf_nil, BLACK, RED]
                    rw [he]
                    have hsub : Bal (.node sk RED (.node pk BLACK x sl)
                        (.node rk BLACK rl rr)) RED (n + 1) :=
                      Bal.red (Bal.black hx hsl) (Bal.black hrl hrr)
                    have hctx2 : CtxB (⟨.L, wk, BLACK, wr⟩ :: rest) BLACK (n + 1) q M :=
                      CtxB.blackL hwr Htl
                    exact setBlack_bal (plug_bal hctx2 hsub (by simp [RED, BLACK]))
      | @redL _ _ pk w _ _ hw Htl =>
        rcases w with _ | ⟨wk, wcol, wl, wr⟩
        · obtain ⟨-, h1⟩ := bal_nil_inv hw
          omega
        · have hwc : wcol = false := bal_colorOf hw
          subst hwc
          obtain ⟨-, c1, c2, m, hm, hwl, hwr⟩ := bal_black_inv hw
          have hmn : n = m := by omega
          subst hmn
          by_cases h2 : colorOf wl = BLACK ∧ colorOf wr = BLACK
          · -- case 2 with RED parent: x moves up, loop exits, parent blackened
            have he : delFix x (⟨.L, pk, RED, .node wk false wl wr⟩ :: rest) =
                delFix (.node pk RED x (.node wk RED wl wr)) rest := by
              simp only [delFix]; rw [if_neg hxr]; simp [colorOf_node, colorOf_nil, BLACK, RED, h2.1, h2.2]
            rw [he, delFix_red (by simp [colorOf, RED])]
            have hc1 : c1 = BLACK := by rw [← bal_colorOf hwl, h2.1]
            have hc2 : c2 = BLACK := by rw [← bal_colorOf hwr, h2.2]
            subst hc1; subst hc2
            have hsub : Bal (setBlack (.node pk RED x (.node wk RED wl wr))) BLACK (n + 1) := by
              show Bal (.node pk BLACK x (.node wk RED wl wr)) BLACK (n + 1)
              exact Bal.black hx (Bal.red hwl hwr)
            have hp := plug_bal Htl hsub (by simp [RED, BLACK])
            rw [plugColor_black (lastBlack_tail LB)] at hp
            exact ⟨M, hp⟩
          · by_cases h4 : colorOf wr = BLACK
            · -- case 3 then 4, parent RED
              have hslr : colorOf wl = RED := by
                cases hc : colorOf wl
                · exact absurd ⟨hc, h4⟩ h2
                · rfl
              rcases wl with _ | ⟨nk, ncol, nl, nr⟩
              · simp [colorOf, RED, BLACK] at hslr
              · have hnc : ncol = true := hslr
                subst hnc
                obtain ⟨-, hnl, hnr⟩ := bal_red_inv hwl
                have he : delFix x (⟨.L, pk, RED, .node wk false (.node nk true nl nr) wr⟩ :: rest) =
                    setBlack (plug (.node nk RED (.node pk BLACK x nl)
                      (setBlack (.node wk RED nr wr))) rest) := by
                  simp only [delFix]; rw [if_neg hxr]; simp [colorOf_node, colorOf_nil, BLACK, RED, h4]
                rw [he]
                have hsub : Bal (.node nk RED (.node pk BLACK x nl)
                    (.node wk BLACK nr wr)) RED (n + 1) :=
                  Bal.red (Bal.black hx hnl) (Bal.black hnr hwr)
                exact setBlack_bal (plug_bal Htl hsub (by simp [RED, BLACK]))
            · -- case 4 directly, parent RED
              rcases wr with _ | ⟨rk, rcol, rl, rr⟩
              · exact absurd rfl h4
              · have hrc : rcol = true := by
                  cases rcol
                  · exact absurd rfl h4
                  · rfl
                subst hrc
                obtain ⟨-, hrl, hrr⟩ := bal_red_inv hwr
                have he : delFix x (⟨.L, pk, RED, .node wk false wl (.node rk true rl rr)⟩ :: rest) =
                    setBlack (plug (.node wk RED (.node pk BLACK x wl)
                      (setBlack (.node rk true rl rr))) rest) := by
                  simp only [delFix]; rw [if_neg hxr]; simp [colorOf_node, colorOf_nil, BLACK, RED]
                rw [he]
                have hsub : Bal (.node wk RED (.node pk BLACK x wl)
                    (.node rk BLACK rl rr)) RED (n + 1) :=
                  Bal.red (Bal.black hx hwl) (Bal.black hrl hrr)
                exact setBlack_bal (plug_bal Htl hsub (by simp [RED, BLACK]))
      | @blackR _ pc3 _ pk w cw _ _ hw Htl =>
        rcases w with _ | ⟨wk, wcol, wl, wr⟩
        · obtain ⟨-, h1⟩ := bal_nil_inv hw
          omega
        · cases wcol
          · obtain ⟨-, c1, c2, m, hm, hwl, hwr⟩ := bal_black_inv hw
            have hmn : n = m := by omega
            subst hmn
            by_cases h2 : colorOf wr = BLACK ∧ colorOf wl = BLACK
            · have he : delFix x (⟨.R, pk, BLACK, .node wk false wl wr⟩ :: rest) =
                  delFix (.node pk BLACK (.node wk RED wl wr) x) rest := by
                simp only [delFix]; rw [if_neg hxr]; simp [colorOf_node, colorOf_nil, BLACK, RED, h2.1, h2.2]
              rw [he]
              have hc1 : c1 = BLACK := by rw [← bal_colorOf hwl, h2.2]
              have hc2 : c2 = BLACK := by rw [← bal_colorOf hwr, h2.1]
              subst hc1; subst hc2
              exact ih Htl (Bal.black (Bal.red hwl hwr) hx) (lastBlack_tail LB)
            · by_cases h4 : colorOf wl = BLACK
              · -- mirror case 3 then 4: near nephew wr is RED
                have hslr : colorOf wr = RED := by
                  cases hc : colorOf wr
                  · exact absurd ⟨hc, h4⟩ h2
                  · rfl
                rcases wr with _ | ⟨nk, ncol, nl, nr⟩
                · simp [colorOf, RED, BLACK] at hslr
                · have hnc : ncol = true := hslr
                  subst hnc
                  obtain ⟨-, hnl, hnr⟩ := bal_red_inv hwr
                  have he : delFix x (⟨.R, pk, BLACK, .node wk false wl (.node nk true nl nr)⟩ :: rest) =
                      setBlack (plug (.node nk BLACK (setBlack (.node wk RED wl nl))
                        (.node pk BLACK nr x)) rest) := by
                    simp only [delFix]; rw [if_neg hxr]; simp [colorOf_node, colorOf_nil, BLACK, RED, h4]
                  rw [he]
                  have hsub : Bal (.node nk BLACK (.node wk BLACK wl nl)
                      (.node pk BLACK nr x)) BLACK (n + 2) :=
                    Bal.black (Bal.black hwl hnl) (Bal.black hnr hx)
                  exact setBlack_bal (plug_bal Htl hsub (by simp [RED, BLACK]))
              · -- mirror case 4 directly: far nephew wl is RED
                rcases wl with _ | ⟨rk, rcol, rl, rr⟩
                · exact absurd rfl h4
                · have hrc : rcol = true := by
                    cases rcol
                    · exact absurd rfl h4
                    · rfl
                  subst hrc
                  obtain ⟨-, hrl, hrr⟩ := bal_red_inv hwl
                  have he : delFix x (⟨.R, pk, BLACK, .node wk false (.node rk true rl rr) wr⟩ :: rest) =
                      setBlack (plug (.node wk BLACK (setBlack (.node rk true rl rr))
                        (.node pk BLACK wr x)) rest) := by
                    simp only [delFix]; rw [if_neg hxr]; simp [colorOf_node, colorOf_nil, BLACK, RED]
                  rw [he]
                  have hsub : Bal (.node wk BLACK (.node rk BLACK rl rr)
                      (.node pk BLACK wr x)) BLACK (n + 2) :=
                    Bal.black (Bal.black hrl hrr) (Bal.black hwr hx)
                  exact setBlack_bal (plug_bal Htl hsub (by simp [RED, BLACK]))
          · -- mirror case 1
            obtain ⟨-, hwl, hwr⟩ := bal_red_inv hw
            rcases wr with _ | ⟨sk, scol, sl, sr⟩
            · obtain ⟨-, h1⟩ := bal_nil_inv hwr
              omega
            · have hsc : scol = false := bal_colorOf hwr
              subst hsc
              obtain ⟨-, c1, c2, m, hm, hsl, hsr⟩ := bal_black_inv hwr
              have hmn : n = m := by omega
              subst hmn
              by_cases h2 : colorOf sr = BLACK ∧ colorOf sl = BLACK
              · have he : delFix x (⟨.R, pk, BLACK, .node wk true wl (.node sk false sl sr)⟩ :: rest) =
                    plug (.node pk BLACK (.node sk RED sl sr) x)
                      (⟨.R, wk, BLACK, wl⟩ :: rest) := by
                  simp only [delFix]; rw [if_neg hxr]; simp [colorOf_node, colorOf_nil, BLACK, RED, h2.1, h2.2]
                rw [he]
                have hc1 : c1 = BLACK := by rw [← bal_colorOf hsl, h2.2]
                have hc2 : c2 = BLACK := by rw [← bal_colorOf hsr, h2.1]
                subst hc1; subst hc2
                have hsub : Bal (.node pk BLACK (.node sk RED sl sr) x) BLACK (n + 1) :=
                  Bal.black (Bal.red hsl hsr) hx
                have hctx2 : CtxB (⟨.R, wk, BLACK, wl⟩ :: rest) BLACK (n + 1) q M :=
                  CtxB.blackR hwl Htl
                have hp := plug_bal hctx2 hsub (by simp [RED, BLACK])
                rw [plugColor_black (lastBlack_extend (lastBlack_tail LB) (fun _ => rfl))] at hp
                exact ⟨M, hp⟩
              · by_cases h4 : colorOf sl = BLACK
                · -- mirror case 1, 3, 4: near nephew sr RED
                  have hslr : colorOf sr = RED := by
                    cases hc : colorOf sr
                    · exact absurd ⟨hc, h4⟩ h2
                    · rfl
                  rcases sr with _ | ⟨nk, ncol, nl, nr⟩
                  · simp [colorOf, RED, BLACK] at hslr
                  · have hnc : ncol = true := hslr
                    subst hnc
                    obtain ⟨-, hnl, hnr⟩ := bal_red_inv hsr
                    have he : delFix x (⟨.R, pk, BLACK,
                        .node wk true wl (.node sk false sl (.node nk true nl nr))⟩ :: rest) =
                        setBlack (plug (.node nk RED (setBlack (.node sk RED sl nl))
                          (.node pk BLACK nr x)) (⟨.R, wk, BLACK, wl⟩ :: rest)) := by
                      simp only [delFix]; rw [if_neg hxr]; simp [colorOf_node, colorOf_nil, BLACK, RED, h4]
                    rw [he]
                    have hsub : Bal (.node nk RED (.node sk BLACK sl nl)
                        (.node pk BLACK nr x)) RED (n + 1) :=
                      Bal.red (Bal.black hsl hnl) (Bal.black hnr hx)
                    have hctx2 : CtxB (⟨.R, wk, BLACK, wl⟩ :: rest) BLACK (n + 1) q M :=
                      CtxB.blackR hwl Htl
                    exact setBlack_bal (plug_bal hctx2 hsub (by simp [RED, BLACK]))
                · -- mirror case 1 then 4: far nephew sl RED
                  rcases sl with _ | ⟨rk, rcol, rl, rr⟩
                  · exact absurd rfl h4
                  · have hrc : rcol = true := by
                      cases rcol
                      · exact absurd rfl h4
                      · rfl
                    subst hrc
                    obtain ⟨-, hrl, hrr⟩ := bal_red_inv hsl
                    have he : delFix x (⟨.R, pk, BLACK,
                        .node wk true wl (.node sk false (.node rk true rl rr) sr)⟩ :: rest) =
                        setBlack (plug (.node sk RED (setBlack (.node rk true rl rr))
                          (.node pk BLACK sr x)) (⟨.R, wk, BLACK, wl⟩ :: rest)) := by
                      simp only [delFix]; rw [if_neg hxr]; simp [colorOf_node, colorOf_nil, BLACK, RED]
                    rw [he]
                    have hsub : Bal (.node sk RED (.node rk BLACK rl rr)
                        (.node pk BLACK sr x)) RED (n + 1) :=
                      Bal.red (Bal.black hrl hrr) (Bal.black hsr hx)
                    have hctx2 : CtxB (⟨.R, wk, BLACK, wl⟩ :: rest) BLACK (n + 1) q M :=
                      CtxB.blackR hwl Htl
                    exact setBlack_bal (plug_bal hctx2 hsub (by simp [RED, BLACK]))
      | @redR _ _ pk w _ _ hw Htl =>
        rcases w with _ | ⟨wk, wcol, wl, wr⟩
        · obtain ⟨-, h1⟩ := bal_nil_inv hw
          omega
        · have hwc : wcol = false := bal_colorOf hw
          subst hwc
          obtain ⟨-, c1, c2, m, hm, hwl, hwr⟩ := bal_black_inv hw
          have hmn : n = m := by omega
          subst hmn
          by_cases h2 : colorOf wr = BLACK ∧ colorOf wl = BLACK
          · have he : delFix x (⟨.R, pk, RED, .node wk false wl wr⟩ :: rest) =
                delFix (.node pk RED (.node wk RED wl wr) x) rest := by
              simp only [delFix]; rw [if_neg hxr]; simp [colorOf_node, colorOf_nil, BLACK, RED, h2.1, h2.2]
            rw [he, delFix_red (by simp [colorOf, RED])]
            have hc1 : c1 = BLACK := by rw [← bal_colorOf hwl, h2.2]
            have hc2 : c2 = BLACK := by rw [← bal_colorOf hwr, h2.1]
            subst hc1; subst hc2
            have hsub : Bal (setBlack (.node pk RED (.node wk RED wl wr) x)) BLACK (n + 1) := by
              show Bal (.node pk BLACK (.node wk RED wl wr) x) BLACK (n + 1)
              exact Bal.black (Bal.red hwl hwr) hx
            have hp := plug_bal Htl hsub (by simp [RED, BLACK])
            rw [plugColor_black (lastBlack_tail LB)] at hp
            exact ⟨M, hp⟩
          · by_cases h4 : colorOf wl = BLACK
            · have hslr : colorOf wr = RED := by
                cases hc : colorOf wr
                · exact absurd ⟨hc, h4⟩ h2
                · rfl
              rcases wr with _ | ⟨nk, ncol, nl, nr⟩
              · simp [colorOf, RED, BLACK] at hslr
              · have hnc : ncol = true := hslr
                subst hnc
                obtain ⟨-, hnl, hnr⟩ := bal_red_inv hwr
                have he : delFix x (⟨.R, pk, RED, .node wk false wl (.node nk true nl nr)⟩ :: rest) =
                    setBlack (plug (.node nk RED (setBlack (.node wk RED wl nl))
                      (.node pk BLACK nr x)) rest) := by
                  simp only [delFix]; rw [if_neg hxr]; simp [colorOf_node, colorOf_nil, BLACK, RED, h4]
                rw [he]
                have hsub : Bal (.node nk RED (.node wk BLACK wl nl)
                    (.node pk BLACK nr x)) RED (n + 1) :=
                  Bal.red (Bal.black hwl hnl) (Bal.black hnr hx)
                exact setBlack_bal (plug_bal Htl hsub (by simp [RED, BLACK]))
            · rcases wl with _ | ⟨rk, rcol, rl, rr⟩
              · exact absurd rfl h4
              · have hrc : rcol = true := by
                  cases rcol
                  · exact absurd rfl h4
                  · rfl
                subst hrc
                obtain ⟨-, hrl, hrr⟩ := bal_red_inv hwl
                have he : delFix x (⟨.R, pk, RED, .node wk false (.node rk true rl rr) wr⟩ :: rest) =
                    setBlack (plug (.node wk RED (setBlack (.node rk true rl rr))
                      (.node pk BLACK wr x)) rest) := by
                  simp only [delFix]; rw [if_neg hxr]; simp [colorOf_node, colorOf_nil, BLACK, RED]
                rw [he]
                have hsub : Bal (.node wk RED (.node rk BLACK rl rr)
                    (.node pk BLACK wr x)) RED (n + 1) :=
                  Bal.red (Bal.black hrl hrr) (Bal.black hwr hx)
                exact setBlack_bal (plug_bal Htl hsub (by simp [RED, BLACK]))

/-- The delete search either misses or produces the found node together
with a valid context for its position. -/
theorem searchZ_bal {t : RBTree} {c : Bool} {n : Nat} (hb : Bal t c n) :
    ∀ {acc : Ctx} {pc q : Bool} {M : Nat} (key : Int),
    CtxB acc pc n q M → (pc = RED → c = BLACK) → lastBlack acc →
    (acc = [] → c = BLACK) →
    searchZ key t acc = none ∨
    ∃ zk zc zl zr ctx pc2 n2, searchZ key t acc = some (zk, zc, zl, zr, ctx) ∧
      Bal (.node zk zc zl zr) zc n2 ∧ CtxB ctx pc2 n2 q M ∧
      (pc2 = RED → zc = BLACK) ∧ lastBlack ctx ∧ (ctx = [] → zc = BLACK) := by
  induction hb with
  | nil =>
    intro acc pc q M key H hpc LB hroot
    exact Or.inl rfl
  | @red k l r m hl hr ihl ihr =>
    intro acc pc q M key H hpc LB hroot
    have hpcb : pc = BLACK := by
      cases pc
      · rfl
      · exact absurd (hpc rfl) (by simp [RED, BLACK])
    subst hpcb
    by_cases hk : key = k
    · right
      refine ⟨k, RED, l, r, acc, BLACK, m, ?_, Bal.red hl hr, H, ?_, LB, ?_⟩
      · simp [searchZ, hk]
      · simp [RED, BLACK]
      · intro h
        exact absurd (hroot h) (by simp [RED, BLACK])
    · by_cases hlt : key < k
      · have he : searchZ key (.node k RED l r) acc =
            searchZ key l (⟨.L, k, RED, r⟩ :: acc) := by
          simp [searchZ, hk, hlt]
        rw [he]
        exact ihl key ((CtxB.redL hr H :
            CtxB (⟨.L, k, RED, r⟩ :: acc) RED m q M)) (fun _ => rfl)
          (lastBlack_extend LB (fun h => absurd (hroot h) (by simp [RED, BLACK])))
          (by simp)
      · have he : searchZ key (.node k RED l r) acc =
            searchZ key r (⟨.R, k, RED, l⟩ :: acc) := by
          simp [searchZ, hk, hlt]
        rw [he]
        exact ihr key ((CtxB.redR hl H :
            CtxB (⟨.R, k, RED, l⟩ :: acc) RED m q M)) (fun _ => rfl)
          (lastBlack_extend LB (fun h => absurd (hroot h) (by simp [RED, BLACK])))
          (by simp)
  | @black k c1 c2 l r m hl hr ihl ihr =>
    intro acc pc q M key H hpc LB hroot
    by_cases hk : key = k
    · right
      refine ⟨k, BLACK, l, r, acc, pc, m + 1, ?_, Bal.black hl hr, H, ?_, LB, ?_⟩
      · simp [searchZ, hk]
      · intro _; rfl
      · intro _; rfl
    · by_cases hlt : key < k
      · have he : searchZ key (.node k BLACK l r) acc =
            searchZ key l (⟨.L, k, BLACK, r⟩ :: acc) := by
          simp [searchZ, hk, hlt]
        rw [he]
        exact ihl key ((CtxB.blackL hr H :
            CtxB (⟨.L, k, BLACK, r⟩ :: acc) BLACK m q M)) (by simp [RED, BLACK])
          (lastBlack_extend LB (fun _ => rfl)) (by simp)
      · have he : searchZ key (.node k BLACK l r) acc =
            searchZ key r (⟨.R, k, BLACK, l⟩ :: acc) := by
          simp [searchZ, hk, hlt]
        rw [he]
        exact ihr key ((CtxB.blackR hl H :
            CtxB (⟨.R, k, BLACK, l⟩ :: acc) BLACK m q M)) (by simp [RED, BLACK])
          (lastBlack_extend LB (fun _ => rfl)) (by simp)

/-- Accumulator lemma for the minimum descent. -/
theorem minZ_acc : ∀ (t : RBTree) {ictx : Ctx} {yk : Int} {yc : Bool} {yr : RBTree},
    minZ t [] = some (ictx, yk, yc, yr) →
    ∀ acc : Ctx, minZ t acc = some (ictx ++ acc, yk, yc, yr) := by
  have key : ∀ (t : RBTree) (acc1 acc2 : Ctx),
      minZ t (acc1 ++ acc2) =
        (minZ t acc1).map (fun x => (x.1 ++ acc2, x.2.1, x.2.2.1, x.2.2.2)) := by
    intro t
    induction t with
    | nil => intro acc1 acc2; rfl
    | node k c l r ihl ihr =>
      intro acc1 acc2
      rcases l with _ | ⟨lk, lc, ll, lr⟩
      · rfl
      · show minZ (.node lk lc ll lr) (⟨.L, k, c, r⟩ :: (acc1 ++ acc2)) = _
        have := ihl (⟨.L, k, c, r⟩ :: acc1) acc2
        simpa using this
  intro t ictx yk yc yr h acc
  have h2 := key t [] acc
  simp only [List.nil_append] at h2
  rw [h2, h]
  rfl

/-- The minimum descent on a nonempty balanced subtree, run above a valid
context, finds the leftmost node (sentinel left child) with a valid
context for its position. -/
theorem minZ_bal {t : RBTree} {c : Bool} {m : Nat} (hb : Bal t c m) :
    ∀ {acc : Ctx} {pc q : Bool} {M : Nat},
    CtxB acc pc m q M → (pc = RED → c = BLACK) → lastBlack acc → acc ≠ [] →
    t = .nil ∨
    ∃ ctx yk yc yr pc2 m2, minZ t acc = some (ctx, yk, yc, yr) ∧
      Bal (.node yk yc .nil yr) yc m2 ∧ CtxB ctx pc2 m2 q M ∧
      (pc2 = RED → yc = BLACK) ∧ lastBlack ctx ∧ ctx ≠ [] := by
  induction hb with
  | nil =>
    intro acc pc q M H hpc LB hne
    exact Or.inl rfl
  | @red k l r m hl hr ihl ihr =>
    intro acc pc q M H hpc LB hne
    have hpcb : pc = BLACK := by
      cases pc
      · rfl
      · exact absurd (hpc rfl) (by simp [RED, BLACK])
    subst hpcb
    right
    rcases l with _ | ⟨lk, lc, ll, lr⟩
    · exact ⟨acc, k, RED, r, BLACK, m, rfl, Bal.red hl hr, H,
        (by simp [RED, BLACK]), LB, hne⟩
    · have := ihl ((CtxB.redL hr H :
          CtxB (⟨.L, k, RED, r⟩ :: acc) RED m q M)) (fun _ => rfl)
        (lastBlack_extend LB (fun h => absurd h hne)) (by simp)
      rcases this with h | h
      · exact absurd h (by simp)
      · exact h
  | @black k c1 c2 l r m hl hr ihl ihr =>
    intro acc pc q M H hpc LB hne
    right
    rcases l with _ | ⟨lk, lc, ll, lr⟩
    · exact ⟨acc, k, BLACK, r, pc, m + 1, rfl, Bal.black hl hr, H,
        (fun _ => rfl), LB, hne⟩
    · have := ihl ((CtxB.blackL hr H :
          CtxB (⟨.L, k, BLACK, r⟩ :: acc) BLACK m q M)) (by simp [RED, BLACK])
        (lastBlack_extend LB (fun _ => rfl)) (by simp)
      rcases this with h | h
      · exact absurd h (by simp)
      · exact h

/-- The minimum descent on a node always returns a result. -/
theorem minZ_some : ∀ (l : RBTree) (k : Int) (c : Bool) (r : RBTree),
    ∃ ictx yk yc yr, minZ (.node k c l r) [] = some (ictx, yk, yc, yr) := by
  intro l
  induction l with
  | nil =>
    intro k c r
    exact ⟨[], k, c, r, rfl⟩
  | node lk lc ll lr ihl ihr =>
    intro k c r
    obtain ⟨ictx, yk, yc, yr, h⟩ := ihl lk lc lr
    refine ⟨ictx ++ [⟨.L, k, c, r⟩], yk, yc, yr, ?_⟩
    show minZ (.node lk lc ll lr) [⟨.L, k, c, r⟩] = _
    exact minZ_acc _ h _

/-- Delete preserves balance and the BLACK root. -/
theorem rbDelete_bal {t : RBTree} {N : Nat} (h : Bal t BLACK N) (key : Int) :
    ∃ M, Bal (rbDelete key t) BLACK M := by
  rcases searchZ_bal h key ((CtxB.root : CtxB [] BLACK _ BLACK _)) (by simp [RED, BLACK])
      trivial (fun _ => rfl) with hs |
      ⟨zk, zc, zl, zr, ctx, pc2, n2, hs, hz, Hc, hpc2, LB, hroot⟩
  · rw [rbDelete, hs]
    exact ⟨N, h⟩
  · rcases zl with _ | ⟨ak, ac, al, ar⟩
    · -- case A: no left child
      cases hzc : zc
      · -- zc = BLACK: the spliced node is BLACK, fixup runs
        subst hzc
        obtain ⟨-, c1, c2, m, hm, hz1, hz2⟩ := bal_black_inv hz
        subst hm
        obtain ⟨-, hm1⟩ := bal_nil_inv hz1
        subst hm1
        rw [rbDelete, hs]
        simp only [BLACK, if_pos]
        exact delFix_bal ctx Hc hz2 LB
      · -- zc = RED: both children are sentinels, plain splice
        subst hzc
        obtain ⟨-, hz1, hz2⟩ := bal_red_inv hz
        obtain ⟨-, hn1⟩ := bal_nil_inv hz1
        subst hn1
        rw [rbDelete, hs]
        simp only [RED, BLACK, if_neg, Bool.true_eq_false, not_false_eq_true]
        have hp := plug_bal Hc hz2 (fun _ => rfl)
        rw [plugColor_black LB] at hp
        exact ⟨N, hp⟩
    · rcases zr with _ | ⟨bk, bc, bl, br⟩
      · -- case B: no right child
        cases hzc : zc
        · subst hzc
          obtain ⟨-, c1, c2, m, hm, hz1, hz2⟩ := bal_black_inv hz
          subst hm
          obtain ⟨-, hm1⟩ := bal_nil_inv hz2
          subst hm1
          rw [rbDelete, hs]
          simp only [BLACK, if_pos]
          exact delFix_bal ctx Hc hz1 LB
        · subst hzc
          obtain ⟨-, hz1, hz2⟩ := bal_red_inv hz
          obtain ⟨-, hn1⟩ := bal_nil_inv hz2
          subst hn1
          exact absurd (bal_black_one hz1) (by simp)
      · -- case C: two children, successor splice
        obtain ⟨ictx, yk, yc, yr, hmz⟩ := minZ_some bl bk bc br
        cases hzc : zc
        · -- zc = BLACK
          subst hzc
          obtain ⟨-, c1, c2, m, hm, hz1, hz2⟩ := bal_black_inv hz
          subst hm
          have hacc : CtxB (⟨.R, yk, BLACK, .node ak ac al ar⟩ :: ctx) BLACK m BLACK N :=
            CtxB.blackR hz1 Hc
          have hmb := minZ_bal hz2 hacc (by simp [RED, BLACK])
            (lastBlack_extend LB (fun _ => rfl)) (by simp)
          rcases hmb with hbad | ⟨ctx2, yk2, yc2, yr2, pc3, m2, hmz2, hy, Hc2, hpc3, LB2, hne2⟩
          · exact absurd hbad (by simp)
          · rw [minZ_acc _ hmz _] at hmz2
            have hinj := hmz2
            simp only [Option.some.injEq, Prod.mk.injEq] at hinj
            obtain ⟨hic, hyk, hyc, hyr⟩ := hinj
            subst hic; subst hyk; subst hyc; subst hyr
            rw [rbDelete, hs]
            simp only [hmz]
            cases hyc2 : yc
            · -- yc = BLACK: fixup
              subst hyc2
              obtain ⟨-, d1, d2, mm, hmm, hy1, hy2⟩ := bal_black_inv hy
              subst hmm
              obtain ⟨-, hmm1⟩ := bal_nil_inv hy1
              subst hmm1
              simp only [BLACK, if_pos]
              exact delFix_bal _ Hc2 hy2 LB2
            · -- yc = RED: plain splice
              subst hyc2
              obtain ⟨-, hy1, hy2⟩ := bal_red_inv hy
              obtain ⟨-, hm1⟩ := bal_nil_inv hy1
              subst hm1
              simp only [RED, BLACK, if_neg, Bool.true_eq_false, not_false_eq_true]
              have hp := plug_bal Hc2 hy2 (fun _ => rfl)
              rw [plugColor_black LB2] at hp
              exact ⟨N, hp⟩
        · -- zc = RED
          subst hzc
          obtain ⟨-, hz1, hz2⟩ := bal_red_inv hz
          have hpc2b : pc2 = BLACK := by
            cases pc2
            · rfl
            · exact absurd (hpc2 rfl) (by simp [RED, BLACK])
          subst hpc2b
          have hacc : CtxB (⟨.R, yk, RED, .node ak ac al ar⟩ :: ctx) RED n2 BLACK N :=
            CtxB.redR hz1 Hc
          have hmb := minZ_bal hz2 hacc (fun _ => rfl)
            (lastBlack_extend LB (fun hh => absurd (hroot hh) (by simp [RED, BLACK])))
            (by simp)
          rcases hmb with hbad | ⟨ctx2, yk2, yc2, yr2, pc3, m2, hmz2, hy, Hc2, hpc3, LB2, hne2⟩
          · exact absurd hbad (by simp)
          · rw [minZ_acc _ hmz _] at hmz2
            have hinj := hmz2
            simp only [Option.some.injEq, Prod.mk.injEq] at hinj
            obtain ⟨hic, hyk, hyc, hyr⟩ := hinj
            subst hic; subst hyk; subst hyc; subst hyr
            rw [rbDelete, hs]
            simp only [hmz]
            cases hyc2 : yc
            · subst hyc2
              obtain ⟨-, d1, d2, mm, hmm, hy1, hy2⟩ := bal_black_inv hy
              subst hmm
              obtain ⟨-, hmm1⟩ := bal_nil_inv hy1
              subst hmm1
              simp only [BLACK, if_pos]
              exact delFix_bal _ Hc2 hy2 LB2
            · subst hyc2
              obtain ⟨-, hy1, hy2⟩ := bal_red_inv hy
              obtain ⟨-, hm1⟩ := bal_nil_inv hy1
              subst hm1
              simp only [RED, BLACK, if_neg, Bool.true_eq_false, not_false_eq_true]
              have hp := plug_bal Hc2 hy2 (fun _ => rfl)
              rw [plugColor_black LB2] at hp
              exact ⟨N, hp⟩

/-!
## In-order sequences

The fixups only rotate and recolor, so they preserve the in-order key
sequence of the rebuilt tree.  `ctxPre ctx` and `ctxPost ctx` are the
keys appearing before and after the hole in `plug t ctx`.
-/

/-- Keys to the left of the hole. -/
def ctxPre : Ctx → List Int
  | [] => []
  | ⟨.L, _, _, _⟩ :: ctx => ctxPre ctx
  | ⟨.R, k, _, o⟩ :: ctx => ctxPre ctx ++ inorder o ++ [k]

/-- Keys to the right of the hole. -/
def ctxPost : Ctx → List Int
  | [] => []
  | ⟨.L, k, _, o⟩ :: ctx => k :: inorder o ++ ctxPost ctx
  | ⟨.R, _, _, _⟩ :: ctx => ctxPost ctx

theorem setBlack_inorder (t : RBTree) : inorder (setBlack t) = inorder t := by
  cases t <;> rfl

theorem plug_inorder : ∀ (ctx : Ctx) (t : RBTree),
    inorder (plug t ctx) = ctxPre ctx ++ inorder t ++ ctxPost ctx := by
  intro ctx
  induction ctx with
  | nil => intro t; simp [plug, ctxPre, ctxPost]
  | cons f rest ih =>
    intro t
    rcases f with ⟨d, k, c, o⟩
    cases d
    · show inorder (plug (.node k c t o) rest) = _
      rw [ih]
      simp [inorder, ctxPre, ctxPost]
    · show inorder (plug (.node k c o t) rest) = _
      rw [ih]
      simp [inorder, ctxPre, ctxPost]

theorem ctxPre_append : ∀ (c1 c2 : Ctx), ctxPre (c1 ++ c2) = ctxPre c2 ++ ctxPre c1 := by
  intro c1
  induction c1 with
  | nil => intro c2; simp [ctxPre]
  | cons f rest ih =>
    intro c2
    rcases f with ⟨d, k, c, o⟩
    cases d <;> simp [ctxPre, ih]

theorem ctxPost_append : ∀ (c1 c2 : Ctx), ctxPost (c1 ++ c2) = ctxPost c1 ++ ctxPost c2 := by
  intro c1
  induction c1 with
  | nil => intro c2; simp [ctxPost]
  | cons f rest ih =>
    intro c2
    rcases f with ⟨d, k, c, o⟩
    cases d <;> simp [ctxPost, ih]

/-- The insert fixup preserves the in-order sequence of the rebuilt tree. -/
theorem insFix_inorder : ∀ (B : Nat) (ctx : Ctx), ctx.length ≤ B → ∀ z : RBTree,
    inorder (insFix z ctx) = ctxPre ctx ++ inorder z ++ ctxPost ctx := by
  intro B
  induction B with
  | zero =>
    intro ctx hlen z
    have hctx : ctx = [] := by
      cases ctx
      · rfl
      · simp at hlen
    subst hctx
    simp [insFix, setBlack_inorder, ctxPre, ctxPost]
  | succ B ih =>
    intro ctx hlen z
    rcases ctx with _ | ⟨⟨d1, pk, pc, ps⟩, rest⟩
    · simp [insFix, setBlack_inorder, ctxPre, ctxPost]
    cases pc
    · have he : insFix z (⟨d1, pk, false, ps⟩ :: rest) =
          setBlack (plug z (⟨d1, pk, false, ps⟩ :: rest)) := by
        rcases rest with _ | ⟨⟨d2, gk, gc, u⟩, rest2⟩ <;> cases d1 <;> simp [insFix, BLACK]
      rw [he, setBlack_inorder, plug_inorder]
    · rcases rest with _ | ⟨⟨d2, gk, gc, u⟩, rest2⟩
      · have he : insFix z [⟨d1, pk, true, ps⟩] =
            setBlack (plug z [⟨d1, pk, true, ps⟩]) := by
          cases d1 <;> simp [insFix, BLACK, RED]
        rw [he, setBlack_inorder, plug_inorder]
      · cases d2
        · rcases u with _ | ⟨uk, ucol, ul, ur⟩
          · cases d1
            · have he : insFix z (⟨.L, pk, true, ps⟩ :: ⟨.L, gk, gc, .nil⟩ :: rest2) =
                  setBlack (plug (.node pk BLACK z (.node gk RED ps .nil)) rest2) := by
                simp [insFix, BLACK, RED]
              rw [he, setBlack_inorder, plug_inorder]
              simp [inorder, ctxPre, ctxPost]
            · rcases z with _ | ⟨zk, zc, zl, zr⟩
              · have he : insFix .nil (⟨.R, pk, true, ps⟩ :: ⟨.L, gk, gc, .nil⟩ :: rest2) =
                    setBlack (plug .nil (⟨.R, pk, true, ps⟩ :: ⟨.L, gk, gc, .nil⟩ :: rest2)) := by
                  simp [insFix, BLACK, RED]
                rw [he, setBlack_inorder, plug_inorder]
              · have he : insFix (.node zk zc zl zr) (⟨.R, pk, true, ps⟩ :: ⟨.L, gk, gc, .nil⟩ :: rest2) =
                    setBlack (plug (.node zk BLACK (.node pk RED ps zl)
                      (.node gk RED zr .nil)) rest2) := by
                  simp [insFix, BLACK, RED]
                rw [he, setBlack_inorder, plug_inorder]
                simp [inorder, ctxPre, ctxPost]
          · cases ucol
            · cases d1
              · have he : insFix z (⟨.L, pk, true, ps⟩ :: ⟨.L, gk, gc, .node uk false ul ur⟩ :: rest2) =
                    setBlack (plug (.node pk BLACK z (.node gk RED ps (.node uk false ul ur))) rest2) := by
                  simp [insFix, BLACK, RED]
                rw [he, setBlack_inorder, plug_inorder]
                simp [inorder, ctxPre, ctxPost]
              · rcases z with _ | ⟨zk, zc, zl, zr⟩
                · have he : insFix .nil (⟨.R, pk, true, ps⟩ :: ⟨.L, gk, gc, .node uk false ul ur⟩ :: rest2) =
                      setBlack (plug .nil (⟨.R, pk, true, ps⟩ :: ⟨.L, gk, gc, .node uk false ul ur⟩ :: rest2)) := by
                    simp [insFix, BLACK, RED]
                  rw [he, setBlack_inorder, plug_inorder]
                · have he : insFix (.node zk zc zl zr) (⟨.R, pk, true, ps⟩ :: ⟨.L, gk, gc, .node uk false ul ur⟩ :: rest2) =
                      setBlack (plug (.node zk BLACK (.node pk RED ps zl)
                        (.node gk RED zr (.node uk false ul ur))) rest2) := by
                    simp [insFix, BLACK, RED]
                  rw [he, setBlack_inorder, plug_inorder]
                  simp [inorder, ctxPre, ctxPost]
            · have he : insFix z (⟨d1, pk, true, ps⟩ :: ⟨.L, gk, gc, .node uk true ul ur⟩ :: rest2) =
                  insFix (.node gk RED (match d1 with
                    | .L => .node pk BLACK z ps
                    | .R => .node pk BLACK ps z) (.node uk BLACK ul ur)) rest2 := by
                cases d1 <;> simp [insFix, BLACK, RED]
              rw [he, ih rest2 (by simp at hlen; omega)]
              cases d1 <;> simp [inorder, ctxPre, ctxPost]
        · rcases u with _ | ⟨uk, ucol, ul, ur⟩
          · cases d1
            · rcases z with _ | ⟨zk, zc, zl, zr⟩
              · have he : insFix .nil (⟨.L, pk, true, ps⟩ :: ⟨.R, gk, gc, .nil⟩ :: rest2) =
                    setBlack (plug .nil (⟨.L, pk, true, ps⟩ :: ⟨.R, gk, gc, .nil⟩ :: rest2)) := by
                  simp [insFix, BLACK, RED]
                rw [he, setBlack_inorder, plug_inorder]
              · have he : insFix (.node zk zc zl zr) (⟨.L, pk, true, ps⟩ :: ⟨.R, gk, gc, .nil⟩ :: rest2) =
                    setBlack (plug (.node zk BLACK (.node gk RED .nil zl)
                      (.node pk RED zr ps)) rest2) := by
                  simp [insFix, BLACK, RED]
                rw [he, setBlack_inorder, plug_inorder]
                simp [inorder, ctxPre, ctxPost]
            · have he : insFix z (⟨.R, pk, true, ps⟩ :: ⟨.R, gk, gc, .nil⟩ :: rest2) =
                  setBlack (plug (.node pk BLACK (.node gk RED .nil ps) z) rest2) := by
                simp [insFix, BLACK, RED]
              rw [he, setBlack_inorder, plug_inorder]
              simp [inorder, ctxPre, ctxPost]
          · cases ucol
            · cases d1
              · rcases z with _ | ⟨zk, zc, zl, zr⟩
                · have he : insFix .nil (⟨.L, pk, true, ps⟩ :: ⟨.R, gk, gc, .node uk false ul ur⟩ :: rest2) =
                      setBlack (plug .nil (⟨.L, pk, true, ps⟩ :: ⟨.R, gk, gc, .node uk false ul ur⟩ :: rest2)) := by
                    simp [insFix, BLACK, RED]
                  rw [he, setBlack_inorder, plug_inorder]
                · have he : insFix (.node zk zc zl zr) (⟨.L, pk, true, ps⟩ :: ⟨.R, gk, gc, .node uk false ul ur⟩ :: rest2) =
                      setBlack (plug (.node zk BLACK (.node gk RED (.node uk false ul ur) zl)
                        (.node pk RED zr ps)) rest2) := by
                    simp [insFix, BLACK, RED]
                  rw [he, setBlack_inorder, plug_inorder]
                  simp [inorder, ctxPre, ctxPost]
              · have he : insFix z (⟨.R, pk, true, ps⟩ :: ⟨.R, gk, gc, .node uk false ul ur⟩ :: rest2) =
                    setBlack (plug (.node pk BLACK (.node gk RED (.node uk false ul ur) ps) z) rest2) := by
                  simp [insFix, BLACK, RED]
                rw [he, setBlack_inorder, plug_inorder]
                simp [inorder, ctxPre, ctxPost]
            · have he : insFix z (⟨d1, pk, true, ps⟩ :: ⟨.R, gk, gc, .node uk true ul ur⟩ :: rest2) =
                  insFix (.node gk RED (.node uk BLACK ul ur) (match d1 with
                    | .L => .node pk BLACK z ps
                    | .R => .node pk BLACK ps z)) rest2 := by
                cases d1 <;> simp [insFix, BLACK, RED]
              rw [he, ih rest2 (by simp at hlen; omega)]
              cases d1 <;> simp [inorder, ctxPre, ctxPost]

/-- The delete fixup preserves the in-order sequence of the rebuilt tree. -/
theorem delFix_inorder : ∀ (ctx : Ctx) (x : RBTree),
    inorder (delFix x ctx) = ctxPre ctx ++ inorder x ++ ctxPost ctx := by
  intro ctx
  induction ctx with
  | nil => intro x; simp [delFix, setBlack_inorder, ctxPre, ctxPost]
  | cons f rest ih =>
    intro x
    rcases f with ⟨d1, pk, pc, w⟩
    by_cases hx : colorOf x = RED
    · have he : delFix x (⟨d1, pk, pc, w⟩ :: rest) =
          plug (setBlack x) (⟨d1, pk, pc, w⟩ :: rest) := by
        simp [delFix, hx]
      rw [he, plug_inorder, setBlack_inorder]
    · have hx2 : colorOf x = false := by
        cases hcx : colorOf x
        · rfl
        · exact absurd (by rw [hcx]; rfl) hx
      clear hx
      cases d1
      · rcases w with _ | ⟨wk, wc, wl, wr⟩
        · simp [delFix, hx2, ih, inorder, ctxPre, ctxPost, RED]
        · cases wc
          · -- BLACK sibling
            rcases wl with _ | ⟨ak, ac, al, ar⟩
            · rcases wr with _ | ⟨bk, bc, bl, br⟩
              · simp [delFix, hx2, ih, inorder, ctxPre, ctxPost, BLACK, RED]
              · cases bc <;>
                  simp [delFix, hx2, ih, plug_inorder, setBlack_inorder, inorder,
                    ctxPre, ctxPost, BLACK, RED]
            · rcases wr with _ | ⟨bk, bc, bl, br⟩
              · cases ac <;>
                  simp [delFix, hx2, ih, plug_inorder, setBlack_inorder, inorder,
                    ctxPre, ctxPost, BLACK, RED]
              · cases ac <;> cases bc <;>
                  simp [delFix, hx2, ih, plug_inorder, setBlack_inorder, inorder,
                    ctxPre, ctxPost, BLACK, RED]
          · -- RED sibling, case 1
            rcases wl with _ | ⟨sk, sc, sl, sr⟩
            · simp [delFix, hx2, plug_inorder, setBlack_inorder, inorder,
                ctxPre, ctxPost, BLACK, RED]
            · rcases sl with _ | ⟨ak, ac, al, ar⟩
              · rcases sr with _ | ⟨bk, bc, bl, br⟩
                · simp [delFix, hx2, plug_inorder, setBlack_inorder, inorder,
                    ctxPre, ctxPost, BLACK, RED]
                · cases bc <;>
                    simp [delFix, hx2, plug_inorder, setBlack_inorder, inorder,
                      ctxPre, ctxPost, BLACK, RED]
              · rcases sr with _ | ⟨bk, bc, bl, br⟩
                · cases ac <;>
                    simp [delFix, hx2, plug_inorder, setBlack_inorder, inorder,
                      ctxPre, ctxPost, BLACK, RED]
                · cases ac <;> cases bc <;>
                    simp [delFix, hx2, plug_inorder, setBlack_inorder, inorder,
                      ctxPre, ctxPost, BLACK, RED]
      · rcases w with _ | ⟨wk, wc, wl, wr⟩
        · simp [delFix, hx2, ih, inorder, ctxPre, ctxPost, RED]
        · cases wc
          · rcases wr with _ | ⟨bk, bc, bl, br⟩
            · rcases wl with _ | ⟨ak, ac, al, ar⟩
              · simp [delFix, hx2, ih, inorder, ctxPre, ctxPost, BLACK, RED]
              · cases ac <;>
                  simp [delFix, hx2, ih, plug_inorder, setBlack_inorder, inorder,
                    ctxPre, ctxPost, BLACK, RED]
            · rcases wl with _ | ⟨ak, ac, al, ar⟩
              · cases bc <;>
                  simp [delFix, hx2, ih, plug_inorder, setBlack_inorder, inorder,
                    ctxPre, ctxPost, BLACK, RED]
              · cases ac <;> cases bc <;>
                  simp [delFix, hx2, ih, plug_inorder, setBlack_inorder, inorder,
                    ctxPre, ctxPost, BLACK, RED]
          · rcases wr with _ | ⟨sk, sc, sl, sr⟩
            · simp [delFix, hx2, plug_inorder, setBlack_inorder, inorder,
                ctxPre, ctxPost, BLACK, RED]
            · rcases sr with _ | ⟨bk, bc, bl, br⟩
              · rcases sl with _ | ⟨ak, ac, al, ar⟩
                · simp [delFix, hx2, plug_inorder, setBlack_inorder, inorder,
                    ctxPre, ctxPost, BLACK, RED]
                · cases ac <;>
                    simp [delFix, hx2, plug_inorder, setBlack_inorder, inorder,
                      ctxPre, ctxPost, BLACK, RED]
              · rcases sl with _ | ⟨ak, ac, al, ar⟩
                · cases bc <;>
                    simp [delFix, hx2, plug_inorder, setBlack_inorder, inorder,
                      ctxPre, ctxPost, BLACK, RED]
                · cases ac <;> cases bc <;>
                    simp [delFix, hx2, plug_inorder, setBlack_inorder, inorder,
                      ctxPre, ctxPost, BLACK, RED]

/-- Binary-search-tree ordering: every key in the left subtree is
smaller than the node key, every key in the right subtree larger. -/
def Bst : RBTree → Prop
  | .nil => True
  | .node k _ l r =>
      (∀ x ∈ inorder l, x < k) ∧ (∀ x ∈ inorder r, k < x) ∧ Bst l ∧ Bst r

theorem bst_iff_sorted : ∀ t : RBTree, Bst t ↔ List.Sorted (· < ·) (inorder t) := by
  intro t
  induction t with
  | nil => simp [Bst, inorder, List.Sorted]
  | node k c l r ihl ihr =>
    simp only [Bst, inorder, List.Sorted, List.pairwise_append, List.pairwise_cons, ihl, ihr]
    constructor
    · rintro ⟨hl, hr, sl, sr⟩
      refine ⟨sl, ⟨hr, sr⟩, ?_⟩
      intro x hx y hy
      rcases List.mem_cons.mp hy with rfl | hy
      · exact hl x hx
      · exact lt_trans (hl x hx) (hr y hy)
    · rintro ⟨sl, ⟨hr, sr⟩, hcross⟩
      exact ⟨fun x hx => hcross x hx k (List.mem_cons_self _ _), hr, sl, sr⟩

/-- `descend` splits the in-order sequence of the subtree at the hole:
the accumulated context gains a left part `L` and a right part `R`, and
when the tree is ordered and the key absent, the split brackets the key. -/
theorem descend_split : ∀ (t : RBTree) (key : Int) (acc : Ctx),
    ∃ L R, inorder t = L ++ R ∧
      ctxPre (descend key t acc) = ctxPre acc ++ L ∧
      ctxPost (descend key t acc) = R ++ ctxPost acc ∧
      (Bst t → key ∉ inorder t →
        (∀ x ∈ L, x < key) ∧ (∀ x ∈ R, key < x)) := by
  intro t
  induction t with
  | nil =>
    intro key acc
    exact ⟨[], [], by simp [inorder], by simp [descend], by simp [descend], by simp⟩
  | node k c l r ihl ihr =>
    intro key acc
    by_cases hk : key < k
    · obtain ⟨L, R, hin, hpre, hpost, hb⟩ := ihl key (⟨.L, k, c, r⟩ :: acc)
      refine ⟨L, R ++ k :: inorder r, by simp [inorder, hin], ?_, ?_, ?_⟩
      · rw [show descend key (.node k c l r) acc = descend key l (⟨.L, k, c, r⟩ :: acc) from
          by simp [descend, hk]]
        rw [hpre]; rfl
      · rw [show descend key (.node k c l r) acc = descend key l (⟨.L, k, c, r⟩ :: acc) from
          by simp [descend, hk]]
        rw [hpost]; simp [ctxPost]
      · intro ho hm
        have hml : key ∉ inorder l := fun h => hm (by simp [inorder, h])
        obtain ⟨hL, hR⟩ := hb ho.2.2.1 hml
        refine ⟨hL, ?_⟩
        intro x hx
        rcases List.mem_append.mp hx with hx | hx
        · exact hR x hx
        · rcases List.mem_cons.mp hx with rfl | hx
          · exact hk
          · exact lt_trans hk (ho.2.1 x hx)
    · obtain ⟨L, R, hin, hpre, hpost, hb⟩ := ihr key (⟨.R, k, c, l⟩ :: acc)
      refine ⟨inorder l ++ k :: L, R, by simp [inorder, hin], ?_, ?_, ?_⟩
      · rw [show descend key (.node k c l r) acc = descend key r (⟨.R, k, c, l⟩ :: acc) from
          by simp [descend, hk]]
        rw [hpre]; simp [ctxPre]
      · rw [show descend key (.node k c l r) acc = descend key r (⟨.R, k, c, l⟩ :: acc) from
          by simp [descend, hk]]
        rw [hpost]; simp [ctxPost]
      · intro ho hm
        have hkk : key ≠ k := fun h => hm (by simp [inorder, h])
        have hkgt : k < key := lt_of_le_of_ne (not_lt.mp hk) (Ne.symm hkk)
        have hmr : key ∉ inorder r := fun h => hm (by simp [inorder, h])
        obtain ⟨hL, hR⟩ := hb ho.2.2.2 hmr
        refine ⟨?_, hR⟩
        intro x hx
        rcases List.mem_append.mp hx with hx | hx
        · exact lt_trans (ho.1 x hx) hkgt
        · rcases List.mem_cons.mp hx with rfl | hx
          · exact hkgt
          · exact hL x hx

/-- `RBTree.insert` splices the new key into the in-order sequence at
the descent point; for an ordered tree without the key, at its sorted
position.  Unconditionally the in-order sequence of the result is the
old one with `key` inserted somewhere. -/
theorem rbInsert_inorder (key : Int) (t : RBTree) :
    ∃ L R, inorder t = L ++ R ∧ inorder (rbInsert key t) = L ++ key :: R ∧
      (Bst t → key ∉ inorder t →
        (∀ x ∈ L, x < key) ∧ (∀ x ∈ R, key < x)) := by
  obtain ⟨L, R, hin, hpre, hpost, hb⟩ := descend_split t key []
  refine ⟨L, R, hin, ?_, hb⟩
  rw [rbInsert, insFix_inorder (descend key t []).length _ le_rfl, hpre, hpost]
  simp [inorder, ctxPre, ctxPost]

/-- A successful search returns the key searched for and a context that
rebuilds to the original tree. -/
theorem searchZ_plug : ∀ (t : RBTree) (key : Int) (acc : Ctx)
    {zk : Int} {zc : Bool} {zl zr : RBTree} {ctx : Ctx},
    searchZ key t acc = some (zk, zc, zl, zr, ctx) →
    zk = key ∧ plug (.node zk zc zl zr) ctx = plug t acc := by
  intro t
  induction t with
  | nil => intro key acc zk zc zl zr ctx h; simp [searchZ] at h
  | node k c l r ihl ihr =>
    intro key acc zk zc zl zr ctx h
    by_cases hk : key = k
    · rw [show searchZ key (.node k c l r) acc = some (k, c, l, r, acc) from
        by simp [searchZ, hk]] at h
      obtain ⟨h1, h2, h3, h4, h5⟩ :
          k = zk ∧ c = zc ∧ l = zl ∧ r = zr ∧ acc = ctx := by
        simpa using h
      subst h1; subst h2; subst h3; subst h4; subst h5
      exact ⟨hk.symm, rfl⟩
    · by_cases hlt : key < k
      · rw [show searchZ key (.node k c l r) acc =
            searchZ key l (⟨.L, k, c, r⟩ :: acc) from by simp [searchZ, hk, hlt]] at h
        exact ihl key _ h
      · rw [show searchZ key (.node k c l r) acc =
            searchZ key r (⟨.R, k, c, l⟩ :: acc) from by simp [searchZ, hk, hlt]] at h
        exact ihr key _ h

/-- On an ordered tree a present key is always found. -/
theorem searchZ_found : ∀ (t : RBTree) (key : Int) (acc : Ctx),
    Bst t → key ∈ inorder t → (searchZ key t acc).isSome := by
  intro t
  induction t with
  | nil => intro key acc _ hm; simp [inorder] at hm
  | node k c l r ihl ihr =>
    intro key acc ho hm
    by_cases hk : key = k
    · rw [show searchZ key (.node k c l r) acc = some (k, c, l, r, acc) from
        by simp [searchZ, hk]]
      rfl
    · have hm3 : key ∈ inorder l ∨ key = k ∨ key ∈ inorder r := by
        simpa [inorder] using hm
      rcases hm3 with hml | hmk | hmr
      · have hlt : key < k := ho.1 key hml
        rw [show searchZ key (.node k c l r) acc =
            searchZ key l (⟨.L, k, c, r⟩ :: acc) from by simp [searchZ, hk, hlt]]
        exact ihl key _ ho.2.2.1 hml
      · exact absurd hmk hk
      · have hgt : k < key := ho.2.1 key hmr
        have hlt : ¬ key < k := by omega
        rw [show searchZ key (.node k c l r) acc =
            searchZ key r (⟨.R, k, c, l⟩ :: acc) from by simp [searchZ, hk, hlt]]
        exact ihr key _ ho.2.2.2 hmr

/-- The minimum-finder returns a node with a sentinel left child whose
context rebuilds to the original tree, and the path is all left frames
so it contributes nothing before the hole. -/
theorem minZ_plug : ∀ (t : RBTree) (acc : Ctx)
    {ictx : Ctx} {yk : Int} {yc : Bool} {yr : RBTree},
    minZ t acc = some (ictx, yk, yc, yr) →
    plug (.node yk yc .nil yr) ictx = plug t acc ∧ ctxPre ictx = ctxPre acc := by
  intro t
  induction t with
  | nil => intro acc ictx yk yc yr h; simp [minZ] at h
  | node k c l r ihl _ =>
    intro acc ictx yk yc yr h
    rcases l with _ | ⟨lk, lc, ll, lr⟩
    · obtain ⟨h1, h2, h3, h4⟩ : acc = ictx ∧ k = yk ∧ c = yc ∧ r = yr := by
        simpa [minZ] using h
      subst h1; subst h2; subst h3; subst h4
      exact ⟨rfl, rfl⟩
    · rw [show minZ (.node k c (.node lk lc ll lr) r) acc =
          minZ (.node lk lc ll lr) (⟨.L, k, c, r⟩ :: acc) from by simp [minZ]] at h
      obtain ⟨h1, h2⟩ := ihl _ h
      exact ⟨h1, by rw [h2]; rfl⟩

/-- `RBTree.delete` either misses (the search fails and the tree is
returned unchanged) or removes exactly one occurrence of the key from
the in-order sequence, unconditionally. -/
theorem rbDelete_inorder (key : Int) (t : RBTree) :
    (searchZ key t [] = none ∧ rbDelete key t = t) ∨
    (∃ L R, inorder t = L ++ key :: R ∧ inorder (rbDelete key t) = L ++ R) := by
  cases hs : searchZ key t [] with
  | none => exact Or.inl ⟨rfl, by rw [rbDelete, hs]⟩
  | some res =>
    obtain ⟨zk, zc, zl, zr, ctx⟩ := res
    obtain ⟨hzk, hplug⟩ := searchZ_plug t key [] hs
    subst hzk
    right
    have hint : inorder t = ctxPre ctx ++ (inorder zl ++ zk :: inorder zr) ++ ctxPost ctx := by
      rw [show t = plug (.node zk zc zl zr) ctx from hplug.symm, plug_inorder]
      rfl
    rcases zl with _ | ⟨a, b, c', d⟩
    · refine ⟨ctxPre ctx, inorder zr ++ ctxPost ctx, by simpa [inorder] using hint, ?_⟩
      have hd : rbDelete zk t = if zc = BLACK then delFix zr ctx else plug zr ctx := by
        rw [rbDelete, hs]
      rw [hd]
      by_cases hc : zc = BLACK
      · rw [if_pos hc, delFix_inorder]; simp
      · rw [if_neg hc, plug_inorder]; simp
    · rcases zr with _ | ⟨e, f, g, h'⟩
      · refine ⟨ctxPre ctx ++ inorder (.node a b c' d), ctxPost ctx,
          by simpa [inorder] using hint, ?_⟩
        have hd : rbDelete zk t = if zc = BLACK then delFix (.node a b c' d) ctx
            else plug (.node a b c' d) ctx := by
          rw [rbDelete, hs]
        rw [hd]
        by_cases hc : zc = BLACK
        · rw [if_pos hc, delFix_inorder]
        · rw [if_neg hc, plug_inorder]
      · obtain ⟨ictx, yk, yc, yr, hmin⟩ := minZ_some g e f h'
        obtain ⟨hmp, hpre⟩ := minZ_plug _ [] hmin
        have hzr : inorder (.node e f g h') = yk :: inorder yr ++ ctxPost ictx := by
          rw [show (RBTree.node e f g h') = plug (.node yk yc .nil yr) ictx from hmp.symm,
            plug_inorder]
          rw [show ctxPre ictx = [] from by rw [hpre]; rfl]
          simp [inorder]
        have hd : rbDelete zk t =
            (if yc = BLACK then delFix yr (ictx ++ ⟨.R, yk, zc, .node a b c' d⟩ :: ctx)
             else plug yr (ictx ++ ⟨.R, yk, zc, .node a b c' d⟩ :: ctx)) := by
          rw [rbDelete, hs]
          simp only [hmin]
        refine ⟨ctxPre ctx ++ inorder (.node a b c' d),
          yk :: inorder yr ++ ctxPost ictx ++ ctxPost ctx, ?_, ?_⟩
        · rw [hint, hzr]; simp
        · have hfin : inorder (rbDelete zk t) =
              ctxPre (ictx ++ ⟨.R, yk, zc, .node a b c' d⟩ :: ctx) ++ inorder yr ++
                ctxPost (ictx ++ ⟨.R, yk, zc, .node a b c' d⟩ :: ctx) := by
            rw [hd]
            by_cases hc : yc = BLACK
            · rw [if_pos hc, delFix_inorder]
            · rw [if_neg hc, plug_inorder]
          rw [hfin, ctxPre_append, ctxPost_append]
          rw [show ctxPre ictx = [] from by rw [hpre]; rfl]
          simp [ctxPre, ctxPost]

/-- Deleting an absent key is a no-op (unconditionally: a successful
search would place the key in the in-order sequence). -/
theorem rbDelete_noop (key : Int) (t : RBTree) (hm : key ∉ inorder t) :
    rbDelete key t = t := by
  cases hs : searchZ key t [] with
  | none => rw [rbDelete, hs]
  | some res =>
    obtain ⟨zk, zc, zl, zr, ctx⟩ := res
    obtain ⟨hzk, hplug⟩ := searchZ_plug t key [] hs
    exact absurd (by
      rw [show t = plug (.node zk zc zl zr) ctx from hplug.symm, plug_inorder]
      simp [inorder, hzk]) hm

/-!
## Well-formed runs

`freshRun t steps` says every INSERT in `steps` inserts a key not in the
tree at that moment (duplicate-free inserts); no condition on deletes.
The Python GUIs only produce such runs (analyze.py pre-checks `val in
current` before inserting, build.py's insert aborts on duplicates), and
the search worker only replays permutations of distinct keys.
-/

/-- One step of `execute_steps`. -/
def stepF (t : RBTree) (s : Step) : RBTree :=
  match s.1 with
  | .INSERT => rbInsert s.2.1 t
  | .DELETE => rbDelete s.2.1 t

theorem execSteps_eq (steps : List Step) : execSteps steps = steps.foldl stepF .nil := rfl

/-- Every INSERT key is absent at the time it is inserted. -/
def freshRun : RBTree → List Step → Bool
  | _, [] => true
  | t, s :: rest =>
    match s.1 with
    | .INSERT => !(inorder t).contains s.2.1 && freshRun (rbInsert s.2.1 t) rest
    | .DELETE => freshRun (rbDelete s.2.1 t) rest

theorem sorted_mid {L R : List Int} {key : Int}
    (hs : List.Sorted (· < ·) (L ++ R))
    (hL : ∀ x ∈ L, x < key) (hR : ∀ x ∈ R, key < x) :
    List.Sorted (· < ·) (L ++ key :: R) := by
  simp only [List.Sorted, List.pairwise_append, List.pairwise_cons] at hs ⊢
  obtain ⟨sL, sR, cross⟩ := hs
  refine ⟨sL, ⟨hR, sR⟩, ?_⟩
  intro a ha b hb
  rcases List.mem_cons.mp hb with rfl | hb
  · exact hL a ha
  · exact lt_trans (hL a ha) (hR b hb)

/-- A fresh insert keeps the in-order sequence strictly sorted. -/
theorem rbInsert_sorted {t : RBTree} {key : Int}
    (hs : List.Sorted (· < ·) (inorder t)) (hm : key ∉ inorder t) :
    List.Sorted (· < ·) (inorder (rbInsert key t)) := by
  obtain ⟨L, R, hin, hres, hb⟩ := rbInsert_inorder key t
  obtain ⟨hL, hR⟩ := hb ((bst_iff_sorted t).mpr hs) hm
  rw [hres]
  exact sorted_mid (hin ▸ hs) hL hR

/-- Deletion keeps the in-order sequence strictly sorted. -/
theorem rbDelete_sorted {t : RBTree} (key : Int)
    (hs : List.Sorted (· < ·) (inorder t)) :
    List.Sorted (· < ·) (inorder (rbDelete key t)) := by
  rcases rbDelete_inorder key t with ⟨_, he⟩ | ⟨L, R, hin, hres⟩
  · rw [he]; exact hs
  · rw [hres]
    have hsub : (L ++ R).Sublist (L ++ key :: R) :=
      (List.sublist_cons_self key R).append_left L
    exact List.Pairwise.sublist hsub (hin ▸ hs)

/-- Membership after an insert (unconditional): the new key joins the
in-order sequence, nothing else changes. -/
theorem rbInsert_mem (key : Int) (t : RBTree) (x : Int) :
    x ∈ inorder (rbInsert key t) ↔ x = key ∨ x ∈ inorder t := by
  obtain ⟨L, R, hin, hres, _⟩ := rbInsert_inorder key t
  rw [hres, hin]
  simp [or_comm, or_assoc, or_left_comm]

/-- Membership after a delete on a sorted tree: exactly the requested
key leaves the in-order sequence. -/
theorem rbDelete_mem (key : Int) (t : RBTree)
    (hs : List.Sorted (· < ·) (inorder t)) (x : Int) :
    x ∈ inorder (rbDelete key t) ↔ x ∈ inorder t ∧ x ≠ key := by
  by_cases hk : key ∈ inorder t
  · rcases rbDelete_inorder key t with ⟨hnone, _⟩ | ⟨L, R, hin, hres⟩
    · exact absurd (searchZ_found t key [] ((bst_iff_sorted t).mpr hs) hk)
        (by simp [hnone])
    · have hcross : (∀ a ∈ L, a < key) ∧ ∀ b ∈ R, key < b := by
        have h2 := hin ▸ hs
        simp only [List.Sorted, List.pairwise_append, List.pairwise_cons] at h2
        exact ⟨fun a ha => h2.2.2 a ha key (List.mem_cons_self _ _), h2.2.1.1⟩
      rw [hres, hin]
      constructor
      · intro hx
        rcases List.mem_append.mp hx with hx | hx
        · exact ⟨by simp [hx], by exact fun he => absurd (hcross.1 x hx) (by simp [he])⟩
        · exact ⟨by simp [hx], by exact fun he => absurd (hcross.2 x hx) (by simp [he])⟩
      · rintro ⟨hx, hne⟩
        rcases List.mem_append.mp hx with hx | hx
        · exact List.mem_append.mpr (Or.inl hx)
        · rcases List.mem_cons.mp hx with rfl | hx
          · exact absurd rfl hne
          · exact List.mem_append.mpr (Or.inr hx)
  · rw [rbDelete_noop key t hk]
    constructor
    · intro hx
      exact ⟨hx, fun he => hk (he ▸ hx)⟩
    · exact fun h => h.1

/-- Folding a fresh run over a balanced, sorted tree keeps it balanced
and sorted. -/
theorem stepFold_wf : ∀ (steps : List Step) (t : RBTree),
    (∃ N, Bal t BLACK N) → List.Sorted (· < ·) (inorder t) →
    freshRun t steps = true →
    (∃ M, Bal (steps.foldl stepF t) BLACK M) ∧
      List.Sorted (· < ·) (inorder (steps.foldl stepF t)) := by
  intro steps
  induction steps with
  | nil => intro t hb hs _; exact ⟨hb, hs⟩
  | cons s rest ih =>
    intro t hb hs hf
    obtain ⟨a, k, fl⟩ := s
    obtain ⟨N, hN⟩ := hb
    cases a
    · have hf2 : (inorder t).contains k = false ∧ freshRun (rbInsert k t) rest = true := by
        simpa [freshRun, Bool.and_eq_true] using hf
      have hm : k ∉ inorder t := by
        intro hmem
        rw [List.contains_eq_any_beq] at hf2
        simp [List.any_eq_true] at hf2
        exact hf2.1 k hmem rfl
      have h1 : (Act.INSERT, k, fl) :: rest = [(Act.INSERT, k, fl)] ++ rest := rfl
      rw [h1, List.foldl_append]
      exact ih (rbInsert k t) (rbInsert_bal hN k) (rbInsert_sorted hs hm) hf2.2
    · have hf2 : freshRun (rbDelete k t) rest = true := by
        simpa [freshRun] using hf
      have h1 : (Act.DELETE, k, fl) :: rest = [(Act.DELETE, k, fl)] ++ rest := rfl
      rw [h1, List.foldl_append]
      exact ih (rbDelete k t) (rbDelete_bal hN k) (rbDelete_sorted k hs) hf2

/-- On a key not present anywhere in the tree, the build.py descent never
sees an equal key, so it agrees with the analyze.py descent. -/
theorem descendB_fresh : ∀ (t : RBTree) (key : Int) (acc : Ctx),
    key ∉ inorder t → descendB key t acc = some (descend key t acc) := by
  intro t
  induction t with
  | nil => intro key acc _; simp [descendB, descend]
  | node k c l r ihl ihr =>
    intro key acc hm
    have hm3 : ¬(key ∈ inorder l ∨ key = k ∨ key ∈ inorder r) := by
      simpa [inorder] using hm
    push_neg at hm3
    by_cases hlt : key < k
    · rw [show descendB key (.node k c l r) acc = descendB key l (⟨.L, k, c, r⟩ :: acc) from
        by simp [descendB, hm3.2.1, hlt]]
      rw [show descend key (.node k c l r) acc = descend key l (⟨.L, k, c, r⟩ :: acc) from
        by simp [descend, hlt]]
      exact ihl key _ hm3.1
    · rw [show descendB key (.node k c l r) acc = descendB key r (⟨.R, k, c, l⟩ :: acc) from
        by simp [descendB, hm3.2.1, hlt]]
      rw [show descend key (.node k c l r) acc = descend key r (⟨.R, k, c, l⟩ :: acc) from
        by simp [descend, hlt]]
      exact ihr key _ hm3.2.2

/-- On an ordered tree, the build.py descent finds a present key and
aborts. -/
theorem descendB_dup : ∀ (t : RBTree) (key : Int) (acc : Ctx),
    Bst t → key ∈ inorder t → descendB key t acc = none := by
  intro t
  induction t with
  | nil => intro key acc _ hm; simp [inorder] at hm
  | node k c l r ihl ihr =>
    intro key acc ho hm
    by_cases hk : key = k
    · simp [descendB, hk]
    · have hm3 : key ∈ inorder l ∨ key = k ∨ key ∈ inorder r := by
        simpa [inorder] using hm
      rcases hm3 with hml | hmk | hmr
      · have hlt : key < k := ho.1 key hml
        rw [show descendB key (.node k c l r) acc = descendB key l (⟨.L, k, c, r⟩ :: acc) from
          by simp [descendB, hk, hlt]]
        exact ihl key _ ho.2.2.1 hml
      · exact absurd hmk hk
      · have hgt : k < key := ho.2.1 key hmr
        have hlt : ¬ key < k := by omega
        rw [show descendB key (.node k c l r) acc = descendB key r (⟨.R, k, c, l⟩ :: acc) from
          by simp [descendB, hk, hlt]]
        exact ihr key _ ho.2.2.2 hmr

/-- A fresh insert is carried out identically by the two engines. -/
theorem bInsert_fresh {t : RBTree} {key : Int} (hm : key ∉ inorder t) :
    bInsert key t = rbInsert key t := by
  rw [bInsert, descendB_fresh t key [] hm, rbInsert]

/-- One step of `RBTreeAnimated` replay. -/
def bStepF (t : RBTree) (s : Step) : RBTree :=
  match s.1 with
  | .INSERT => bInsert s.2.1 t
  | .DELETE => bDelete s.2.1 t

theorem bExecSteps_eq (steps : List Step) :
    bExecSteps steps = steps.foldl bStepF .nil := rfl

/-- On a fresh run the two engines track each other exactly. -/
theorem bStepFold_eq : ∀ (steps : List Step) (t : RBTree),
    freshRun t steps = true → steps.foldl bStepF t = steps.foldl stepF t := by
  intro steps
  induction steps with
  | nil => intro t _; rfl
  | cons s rest ih =>
    intro t hf
    obtain ⟨a, k, fl⟩ := s
    cases a
    · have hf2 : (inorder t).contains k = false ∧ freshRun (rbInsert k t) rest = true := by
        simpa [freshRun, Bool.and_eq_true] using hf
      have hm : k ∉ inorder t := by
        intro hmem
        rw [List.contains_eq_any_beq] at hf2
        simp [List.any_eq_true] at hf2
        exact hf2.1 k hmem rfl
      show List.foldl bStepF (bInsert k t) rest = List.foldl stepF (rbInsert k t) rest
      rw [bInsert_fresh hm]
      exact ih _ hf2.2
    · show List.foldl bStepF (bDelete k t) rest = List.foldl stepF (rbDelete k t) rest
      rw [show bDelete k t = rbDelete k t from rfl]
      exact ih _ (by simpa [freshRun] using hf)

theorem sorted_eq_of_mem_iff {l1 l2 : List Int}
    (h1 : List.Sorted (· < ·) l1) (h2 : List.Sorted (· < ·) l2)
    (hm : ∀ x, x ∈ l1 ↔ x ∈ l2) : l1 = l2 :=
  List.eq_of_perm_of_sorted
    ((List.perm_ext_iff_of_nodup h1.nodup h2.nodup).mpr hm) h1 h2

/-- The helper-interleaving loop against the plain insert fold: starting
from trees `t` (helper side) and `u` (plain side) whose key sets differ
by exactly the helper key during its live phase, the two runs end with
the same in-order sequence. -/
theorem helperGo_inorder : ∀ (fuel si : Nat) (rest : List Int)
    (t u : RBTree) (hval : Int) (insPos delPos : Nat),
    insPos < delPos → delPos < si + fuel →
    rest.length + (if si ≤ insPos then 2 else if si ≤ delPos then 1 else 0) ≤ fuel →
    List.Sorted (· < ·) (inorder t) → List.Sorted (· < ·) (inorder u) →
    (∀ x, x ∈ inorder t ↔ (x ∈ inorder u ∨ (x = hval ∧ insPos < si ∧ si ≤ delPos))) →
    hval ∉ inorder u →
    (∀ k ∈ rest, k ∉ inorder t) →
    hval ∉ rest → rest.Nodup →
    inorder ((helperStepsGo hval insPos delPos fuel si rest).foldl stepF t) =
      inorder (rest.foldl (fun w k => rbInsert k w) u) := by
  intro fuel
  induction fuel with
  | zero =>
    intro si rest t u hval insPos delPos hid hdf hcount hst hsu hmem hvu hfr hvr hnd
    have h3 : ¬ si ≤ delPos := by omega
    have h2 : ¬ si ≤ insPos := by omega
    rw [if_neg h2, if_neg h3] at hcount
    have hrest : rest = [] := by
      cases rest
      · rfl
      · simp at hcount
    subst hrest
    rw [show helperStepsGo hval insPos delPos 0 si [] = [] from rfl]
    exact sorted_eq_of_mem_iff hst hsu (fun x => by
      have hx := hmem x
      simp only [h3, and_false, or_false] at hx
      exact hx)
  | succ fuel ih =>
    intro si rest t u hval insPos delPos hid hdf hcount hst hsu hmem hvu hfr hvr hnd
    by_cases hins : si = insPos
    · subst hins
      have hfresh : hval ∉ inorder t := by
        intro h
        rcases (hmem hval).mp h with h | ⟨_, h2, _⟩
        · exact hvu h
        · omega
      rw [show helperStepsGo hval si delPos (fuel+1) si rest
          = (Act.INSERT, hval, true) :: helperStepsGo hval si delPos fuel (si+1) rest
          from by simp [helperStepsGo]]
      rw [List.foldl_cons]
      refine ih (si+1) rest (rbInsert hval t) u hval si delPos hid (by omega) ?_
        (rbInsert_sorted hst hfresh) hsu ?_ hvu ?_ hvr hnd
      · split_ifs at hcount ⊢ <;> omega
      · intro x
        rw [rbInsert_mem, hmem x]
        constructor
        · rintro (rfl | (h | ⟨h1, h2, h3⟩))
          · exact Or.inr ⟨rfl, by omega, by omega⟩
          · exact Or.inl h
          · omega
        · rintro (h | ⟨rfl, _, _⟩)
          · exact Or.inr (Or.inl h)
          · exact Or.inl rfl
      · intro k hk
        rw [rbInsert_mem]
        rintro (rfl | h)
        · exact hvr hk
        · exact hfr k hk h
    · by_cases hdel : si = delPos
      · subst hdel
        have hmemt : hval ∈ inorder t :=
          (hmem hval).mpr (Or.inr ⟨rfl, by omega, le_refl _⟩)
        rw [show helperStepsGo hval insPos si (fuel+1) si rest
            = (Act.DELETE, hval, true) :: helperStepsGo hval insPos si fuel (si+1) rest
            from by simp [helperStepsGo, hins]]
        rw [List.foldl_cons]
        refine ih (si+1) rest (rbDelete hval t) u hval insPos si hid (by omega) ?_
          (rbDelete_sorted hval hst) hsu ?_ hvu ?_ hvr hnd
        · split_ifs at hcount ⊢ <;> omega
        · intro x
          rw [rbDelete_mem hval t hst x, hmem x]
          constructor
          · rintro ⟨(h | ⟨rfl, _, _⟩), hne⟩
            · exact Or.inl h
            · exact absurd rfl hne
          · rintro (h | ⟨rfl, _, h3⟩)
            · exact ⟨Or.inl h, fun he => hvu (he ▸ h)⟩
            · omega
        · intro k hk
          rw [rbDelete_mem hval t hst k]
          rintro ⟨h, _⟩
          exact hfr k hk h
      · have hphase : (insPos < si ∧ si ≤ delPos) ↔ (insPos < si+1 ∧ si+1 ≤ delPos) := by
          omega
        rcases rest with _ | ⟨k, rest2⟩
        · rw [show helperStepsGo hval insPos delPos (fuel+1) si []
              = helperStepsGo hval insPos delPos fuel (si+1) []
              from by simp [helperStepsGo, hins, hdel]]
          refine ih (si+1) [] t u hval insPos delPos hid (by omega) ?_ hst hsu ?_ hvu
            (by simp) (by simp) (by simp)
          · simp only [List.length_nil] at hcount ⊢
            split_ifs at hcount ⊢ <;> omega
          · intro x
            rw [hmem x]
            simp only [hphase]
        · have hkf : k ∉ inorder t := hfr k (List.mem_cons_self _ _)
          have hkfu : k ∉ inorder u := fun h => hkf ((hmem k).mpr (Or.inl h))
          have hvk : hval ≠ k := fun h => hvr (h ▸ List.mem_cons_self _ _)
          rw [show helperStepsGo hval insPos delPos (fuel+1) si (k :: rest2)
              = (Act.INSERT, k, false) :: helperStepsGo hval insPos delPos fuel (si+1) rest2
              from by simp [helperStepsGo, hins, hdel]]
          rw [List.foldl_cons, List.foldl_cons]
          refine ih (si+1) rest2 (rbInsert k t) (rbInsert k u) hval insPos delPos hid
            (by omega) ?_ (rbInsert_sorted hst hkf) (rbInsert_sorted hsu hkfu) ?_ ?_ ?_
            (fun h => hvr (List.mem_cons_of_mem _ h)) hnd.of_cons
          · simp only [List.length_cons] at hcount
            split_ifs at hcount ⊢ <;> omega
          · intro x
            rw [rbInsert_mem, rbInsert_mem, hmem x]
            simp only [hphase]
            tauto
          · rw [rbInsert_mem]
            rintro (h | h)
            · exact hvk h
            · exact hvu h
          · intro k2 hk2
            rw [rbInsert_mem]
            rintro (rfl | h)
            · exact (List.nodup_cons.mp hnd).1 hk2
            · exact hfr k2 (List.mem_cons_of_mem _ hk2) h

/-!
## The claims
-/

theorem execSteps_directSteps (pl : List Int) :
    execSteps (directSteps pl) = insertSeq pl := by
  rw [execSteps_eq, directSteps, List.foldl_map]
  rfl

/-- A tree reachable from the empty tree by a duplicate-free run of
inserts and deletes. -/
def Reach (t : RBTree) : Prop :=
  ∃ steps, freshRun .nil steps = true ∧ execSteps steps = t

/-- C1 (amended): after every duplicate-free run of inserts and deletes
from the empty tree, the resulting tree satisfies the six §3 invariants:
colors are the two-valued `Bool` (invariant 1, by construction), the
root is BLACK (`rootBlackOk`, invariant 2), the sentinel is BLACK
(invariant 3), no RED node has a RED child (`noRedRed`, invariant 4),
every root-to-sentinel path has the same black count (`bhOk`, invariant
5), and the in-order key sequence is strictly increasing (invariant 6).
The freshness condition is necessary: the unamended claim fails because
`RBTree.insert` has no duplicate check (see the counterexample). -/
theorem spec_C1_invariants_fresh_runs (steps : List Step)
    (hf : freshRun .nil steps = true) :
    rootBlackOk (execSteps steps) = true ∧
    colorOf .nil = BLACK ∧
    noRedRed (execSteps steps) = true ∧
    bhOk (execSteps steps) = true ∧
    List.Sorted (· < ·) (inorder (execSteps steps)) := by
  have h := stepFold_wf steps .nil ⟨1, Bal.nil⟩ (by simp [inorder]) hf
  rw [← execSteps_eq] at h
  obtain ⟨⟨M, hM⟩, hsort⟩ := h
  have hc := bal_checks hM
  refine ⟨?_, rfl, hc.1, ?_, hsort⟩
  · simp [rootBlackOk, bal_colorOf hM]
  · simp [bhOk, hc.2]

theorem spec_C1_witness :
    freshRun .nil [(Act.INSERT, 2, false), (Act.INSERT, 1, false),
      (Act.DELETE, 2, false)] = true ∧
    (rootBlackOk (execSteps [(Act.INSERT, 2, false), (Act.INSERT, 1, false),
        (Act.DELETE, 2, false)]) = true ∧
      colorOf .nil = BLACK ∧
      noRedRed (execSteps [(Act.INSERT, 2, false), (Act.INSERT, 1, false),
        (Act.DELETE, 2, false)]) = true ∧
      bhOk (execSteps [(Act.INSERT, 2, false), (Act.INSERT, 1, false),
        (Act.DELETE, 2, false)]) = true ∧
      List.Sorted (· < ·) (inorder (execSteps [(Act.INSERT, 2, false),
        (Act.INSERT, 1, false), (Act.DELETE, 2, false)]))) :=
  ⟨by decide, spec_C1_invariants_fresh_runs _ (by decide)⟩

/-- C1 counterexample: `RBTree.insert` never checks for duplicates, so
inserting 5 twice yields the in-order sequence `[5, 5]`, which is not
strictly increasing — invariant 6 fails on a legal operation sequence. -/
theorem spec_C1_counterexample :
    ¬ List.Sorted (· < ·) (inorder (execSteps
      [(Act.INSERT, 5, false), (Act.INSERT, 5, false)])) := by decide

/-- C2 (amended): on a strictly ordered tree, `RBTreeAnimated.insert`
(build.py) finds a present key during its descent and aborts without
mutation.  The analyze.py half of the claim is false (see the
counterexample): `RBTree.insert` has no duplicate check at all. -/
theorem spec_C2_duplicate_insert_build (t : RBTree) (key : Int)
    (hs : List.Sorted (· < ·) (inorder t)) (hm : key ∈ inorder t) :
    bInsert key t = t := by
  rw [bInsert, descendB_dup t key [] ((bst_iff_sorted t).mpr hs) hm]

theorem spec_C2_witness :
    List.Sorted (· < ·) (inorder (execSteps [(Act.INSERT, 5, false)])) ∧
    5 ∈ inorder (execSteps [(Act.INSERT, 5, false)]) ∧
    bInsert 5 (execSteps [(Act.INSERT, 5, false)]) =
      execSteps [(Act.INSERT, 5, false)] :=
  ⟨by decide, by decide,
    spec_C2_duplicate_insert_build _ 5 (by decide) (by decide)⟩

/-- C2 counterexample: `RBTree.insert` (analyze.py) MUTATES the tree on
a duplicate key — the equal key descends right and a second node is
attached — so the analyze.py half of the claim is false. -/
theorem spec_C2_counterexample :
    rbInsert 5 (execSteps [(Act.INSERT, 5, false)]) ≠
      execSteps [(Act.INSERT, 5, false)] := by decide

/-- C3: the Direct search filters the full permutation list by exact
fingerprint match: a permutation is reported iff it is a permutation of
the elements whose pure-insert fingerprint equals the target; in
particular any sequence `S` whose own fingerprint is the target appears
among the results (reflexivity). -/
theorem spec_C3_direct_search_sound_complete (elems : List Int) (target : Fp) :
    (∀ p, p ∈ directSearch elems target ↔
      p ∈ elems.permutations ∧ toTuple (insertSeq p) = target) ∧
    (∀ S, S.Perm elems → toTuple (insertSeq S) = target →
      S ∈ directSearch elems target) := by
  constructor
  · intro p
    simp [directSearch, List.mem_filter]
  · intro S hperm htar
    rw [directSearch, List.mem_filter]
    exact ⟨List.mem_permutations.mpr hperm, by simp [htar]⟩

theorem spec_C3_witness :
    ([2, 1] : List Int).Perm [1, 2] ∧
    toTuple (insertSeq [2, 1]) = toTuple (insertSeq [2, 1]) ∧
    [2, 1] ∈ directSearch [1, 2] (toTuple (insertSeq [2, 1])) :=
  ⟨by decide, rfl,
    (spec_C3_direct_search_sound_complete [1, 2] _).2 [2, 1] (by decide) rfl⟩

/-- C9 (amended): on duplicate-free runs the two engines produce
structurally identical trees.  Without that condition they differ (see
the counterexample): build.py aborts duplicate inserts, analyze.py
attaches a second node. -/
theorem spec_C9_engines_equal (steps : List Step)
    (hf : freshRun .nil steps = true) :
    bExecSteps steps = execSteps steps := by
  rw [bExecSteps_eq, execSteps_eq]
  exact bStepFold_eq steps .nil hf

theorem spec_C9_witness :
    freshRun .nil [(Act.INSERT, 1, false), (Act.DELETE, 1, false),
      (Act.INSERT, 2, false)] = true ∧
    bExecSteps [(Act.INSERT, 1, false), (Act.DELETE, 1, false),
      (Act.INSERT, 2, false)] =
      execSteps [(Act.INSERT, 1, false), (Act.DELETE, 1, false),
        (Act.INSERT, 2, false)] :=
  ⟨by decide, spec_C9_engines_equal _ (by decide)⟩

/-- C9 counterexample: replaying `[insert 5, insert 5]` the engines
disagree — `RBTreeAnimated` holds one node, `RBTree` holds two. -/
theorem spec_C9_counterexample :
    bExecSteps [(Act.INSERT, 5, false), (Act.INSERT, 5, false)] ≠
      execSteps [(Act.INSERT, 5, false), (Act.INSERT, 5, false)] := by decide

/-- C10: on any reachable tree (duplicate-free run from empty), a fresh
insert splices exactly the new key into the in-order sequence at its
sorted position, and a delete of a present key removes exactly that key:
the key is gone afterwards and the rest of the sequence is unchanged and
still sorted. -/
theorem spec_C10_membership (t : RBTree) (hr : Reach t) (k : Int) :
    (k ∉ inorder t → ∃ L R, inorder t = L ++ R ∧
      inorder (rbInsert k t) = L ++ k :: R ∧
      List.Sorted (· < ·) (inorder (rbInsert k t))) ∧
    (k ∈ inorder t → ∃ L R, inorder t = L ++ k :: R ∧
      inorder (rbDelete k t) = L ++ R ∧ k ∉ inorder (rbDelete k t) ∧
      List.Sorted (· < ·) (inorder (rbDelete k t))) := by
  obtain ⟨steps, hf, hex⟩ := hr
  have hw := stepFold_wf steps .nil ⟨1, Bal.nil⟩ (by simp [inorder]) hf
  rw [← execSteps_eq, hex] at hw
  obtain ⟨-, hsort⟩ := hw
  constructor
  · intro hm
    obtain ⟨L, R, hin, hres, _⟩ := rbInsert_inorder k t
    exact ⟨L, R, hin, hres, rbInsert_sorted hsort hm⟩
  · intro hm
    rcases rbDelete_inorder k t with ⟨hnone, _⟩ | ⟨L, R, hin, hres⟩
    · exact absurd (searchZ_found t k [] ((bst_iff_sorted t).mpr hsort) hm)
        (by simp [hnone])
    · refine ⟨L, R, hin, hres, ?_, rbDelete_sorted k hsort⟩
      simp [rbDelete_mem k t hsort k]

theorem spec_C10_witness :
    (2 : Int) ∉ inorder (execSteps [(Act.INSERT, 1, false), (Act.INSERT, 3, false)]) ∧
    (∃ L R,
      inorder (execSteps [(Act.INSERT, 1, false), (Act.INSERT, 3, false)]) = L ++ R ∧
      inorder (rbInsert 2 (execSteps [(Act.INSERT, 1, false), (Act.INSERT, 3, false)])) =
        L ++ 2 :: R ∧
      List.Sorted (· < ·) (inorder (rbInsert 2 (execSteps
        [(Act.INSERT, 1, false), (Act.INSERT, 3, false)])))) :=
  ⟨by decide, (spec_C10_membership _
    ⟨[(Act.INSERT, 1, false), (Act.INSERT, 3, false)], by decide, rfl⟩ 2).1 (by decide)⟩

/-- C4 (amended): interleaving the helper insert/delete round-trip into
a duplicate-free insert sequence leaves the final IN-ORDER KEY SEQUENCE
equal to the plain sequence's.  The original fingerprint claim is false
(see the counterexample): the helper operations recolor and rebalance,
so the final SHAPES can differ. -/
theorem spec_C4_helper_roundtrip (pl : List Int) (hval : Int)
    (insPos delPos : Nat) (hnd : pl.Nodup) (hv : hval ∉ pl)
    (hid : insPos < delPos) (hd : delPos ≤ pl.length + 1) :
    inorder (execSteps (helperSteps pl hval insPos delPos)) =
      inorder (execSteps (directSteps pl)) := by
  rw [execSteps_directSteps, insertSeq, execSteps_eq, helperSteps]
  exact helperGo_inorder (pl.length + 2) 0 pl .nil .nil hval insPos delPos hid
    (by omega) (by rw [if_pos (Nat.zero_le insPos)]) (by simp [inorder])
    (by simp [inorder]) (fun x => by simp [inorder]) (by simp [inorder])
    (fun k _ => by simp [inorder]) hv hnd

theorem spec_C4_witness :
    ([1, 2] : List Int).Nodup ∧ (3 : Int) ∉ ([1, 2] : List Int) ∧
    2 < 3 ∧ 3 ≤ ([1, 2] : List Int).length + 1 ∧
    inorder (execSteps (helperSteps [1, 2] 3 2 3)) =
      inorder (execSteps (directSteps [1, 2])) :=
  ⟨by decide, by decide, by decide, by decide,
    spec_C4_helper_roundtrip [1, 2] 3 2 3 (by decide) (by decide)
      (by decide) (by decide)⟩

/-- C4 counterexample: with main keys `[1, 2]`, helper key 3 inserted at
position 2 and deleted at position 3, the helper run ends in the tree
`(2 BLACK (1 RED ∅ ∅) ∅)` while the plain run ends in
`(1 BLACK ∅ (2 RED ∅ ∅))`: same keys, different fingerprints. -/
theorem spec_C4_counterexample :
    toTuple (execSteps (helperSteps [1, 2] 3 2 3)) ≠
      toTuple (execSteps (directSteps [1, 2])) := by decide

/-- The perfect three-node shape handed to the sampler. -/
def shape3 : RBTree := .node 2 BLACK (.node 1 BLACK .nil .nil) (.node 3 BLACK .nil .nil)

/-- The other valid coloring of `shape3`: RED children. -/
def shape3red : RBTree := .node 2 BLACK (.node 1 RED .nil .nil) (.node 3 RED .nil .nil)

/-- A two-node right chain. -/
def chain2 : RBTree := .node 1 BLACK .nil (.node 2 BLACK .nil .nil)

/-- A three-node right chain. -/
def chain3 : RBTree := .node 1 BLACK .nil (.node 2 BLACK .nil (.node 3 BLACK .nil .nil))

/-- C5: the sampler is NOT uniform.  The perfect three-node shape has
exactly two valid colorings — all-BLACK and RED children, both passing
`noRedRed`/`bhOk`/`rootBlackOk` — so a uniform draw would give each
probability 1/2; `random_valid_rb_coloring` produces them with
probabilities 3/4 and 1/4.  (The root-level `assign` call runs with
`parent_color = None`, so half its candidate mass colors the root RED
with BLACK children, and the final `root.color = BLACK` override folds
that mass onto the all-BLACK coloring.) -/
theorem spec_C5_sampler_not_uniform :
    (noRedRed shape3 && bhOk shape3 && rootBlackOk shape3) = true ∧
    (noRedRed shape3red && bhOk shape3red && rootBlackOk shape3red) = true ∧
    prob (rvrc shape3) shape3 = 3/4 ∧
    prob (rvrc shape3) shape3red = 1/4 ∧
    (3/4 : ℚ) ≠ 1/2 := by
  refine ⟨by decide, by decide, ?_, ?_, by norm_num⟩
  · have h : probW (rvrc shape3) shape3 = (6, 8) := by decide
    rw [prob, h, wVal]
    norm_num
  · have h : probW (rvrc shape3) shape3red = (1, 4) := by decide
    rw [prob, h, wVal]
    norm_num

/-- C6 (amended): the all-BLACK coloring is NOT valid for every shape —
on the two-node chain it fails the equal-black-height check — and the
fallback branch IS reachable: on the three-node chain the root's
BLACK-restricted DP table is empty, and the sampler deterministically
returns the (invalid) all-BLACK coloring. -/
theorem spec_C6_fallback_reachable :
    (buildDp chain3).filter (fun e => e.1.1 = BLACK) = [] ∧
    rvrc chain3 = dpure (allBlack chain3) ∧
    bhOk (allBlack chain3) = false := by
  exact ⟨by decide, by decide, by decide⟩

/-- C6 counterexample: the all-BLACK coloring of the two-node chain has
a sentinel path with two BLACK nodes beside one with one — `bhOk`
rejects it, refuting "the all-BLACK coloring is valid for every shape". -/
theorem spec_C6_counterexample : bhOk (allBlack chain2) = false := by decide

/-- C7 (amended): inserting 10, 20, 30 gives the RED-children
fingerprint `(20, BLACK, (10, RED, ∅, ∅), (30, RED, ∅, ∅))` (the third
insert recolors both children), and deleting 20 gives
`(30, BLACK, (10, RED, ∅, ∅), ∅)`: the claimed BLACK children are
wrong in both fingerprints. -/
theorem spec_C7_scenario :
    toTuple (insertSeq [10, 20, 30]) =
      .mk 20 BLACK (.mk 10 RED .empty .empty) (.mk 30 RED .empty .empty) ∧
    toTuple (rbDelete 20 (insertSeq [10, 20, 30])) =
      .mk 30 BLACK (.mk 10 RED .empty .empty) .empty := by
  exact ⟨by decide, by decide⟩

/-- C7 counterexample: the fingerprint after inserting 10, 20, 30 is not
the claimed all-BLACK one (nor is the delete result's left child BLACK
or its mirror produced — see the amended theorem for the actual values). -/
theorem spec_C7_counterexample :
    toTuple (insertSeq [10, 20, 30]) ≠
      .mk 20 BLACK (.mk 10 BLACK .empty .empty) (.mk 30 BLACK .empty .empty) := by decide

/-- C8 (amended): with a prefix constraint the search refuses to start
exactly when the count is non-positive, FEWER values than the count were
supplied, a value among the first `count` is outside the element set, or
the first `count` values contain a duplicate.  Supplying MORE values
than the count is NOT a refusal — the excess values are silently
truncated away (see the counterexample), contradicting the claimed
"more values than N" refusal case. -/
theorem spec_C8_prefix_refusals (elems vals : List Int) (n : Int) :
    prefCheck elems n vals = none ↔
      n ≤ 0 ∨ (vals.length : Int) < n ∨
      (∃ pv ∈ vals.take n.toNat, pv ∉ elems) ∨
      ¬ (vals.take n.toNat).Nodup := by
  have hany : ((vals.take n.toNat).any (fun pv => ¬ elems.contains pv) = true) ↔
      ∃ pv ∈ vals.take n.toNat, pv ∉ elems := by
    simp [List.any_eq_true]
  rw [prefCheck]
  by_cases h1 : n ≤ 0
  · simp [h1]
  · rw [if_neg h1]
    by_cases h2 : (vals.length : Int) < n
    · simp [h1, h2]
    · rw [if_neg h2]
      by_cases h3 : (vals.take n.toNat).any (fun pv => ¬ elems.contains pv) = true
      · simp [h1, h2, h3, hany.mp h3]
      · by_cases h4 : (vals.take n.toNat).Nodup
        · simp [h1, h2, h3, h4,
            show ¬ ∃ pv ∈ vals.take n.toNat, pv ∉ elems from fun h => h3 (hany.mpr h)]
        · simp [h3, h4]

/-- C8 counterexample: with elements `[1, 2, 3]`, count 1 and the two
prefix values `[1, 2]`, the search is NOT refused: the surplus value 2
is truncated away and the search starts with prefix `[1]`. -/
theorem spec_C8_counterexample : prefCheck [1, 2, 3] 1 [1, 2] = some [1] := by decide
